import Mathlib

/-!
Verification of the Markdown normalization engine `_normalize_markdownlint`
from `scripts/convert_toml_to_readme.py`.

Lines are modelled as `List Char`.  Python string operations (`rstrip`,
`strip`, `expandtabs`, `split("\n")`) and the precompiled regular
expressions (`_re_heading`, `_re_list`, `_re_ul_marker`, `_re_ul_dash`,
`_re_ol_marker`, `_re_bare_url`, `_re_bold_only`, `_re_heading_level`)
are hand-translated into executable Lean functions.  Python dictionaries
keyed by indentation strings become association lists; the mutable main
loop becomes a fold with an explicit state record.

Whitespace and word-character classes approximate Python's unicode
classes: the whitespace set covers the ASCII whitespace characters plus
the common unicode space characters, and the word-character set covers
ASCII alphanumerics, underscore, CJK ideographs, kana and fullwidth
alphanumerics.  All claims are settled over this model.
-/

abbrev Line := List Char

/-- Python `str.isspace` / regex `\s` character class (common subset). -/
def pyIsWs (c : Char) : Bool :=
  c = ' ' || c = '\t' || c = '\n' || c = '\x0b' || c = '\x0c' || c = '\r' ||
  c = '\x1c' || c = '\x1d' || c = '\x1e' || c = '\x1f' || c = '\x85' ||
  c = '\u00A0' || c = '\u1680' || ('\u2000' ≤ c && c ≤ '\u200A') ||
  c = '\u2028' || c = '\u2029' || c = '\u202F' || c = '\u205F' || c = '\u3000'

/-- Regex `\w` (approximation: ASCII alphanumerics, underscore, CJK
ideographs, kana, fullwidth alphanumerics). -/
def pyIsWordChar (c : Char) : Bool :=
  c.isAlphanum || c = '_' ||
  ('\u4E00' ≤ c && c ≤ '\u9FFF') || ('\u3040' ≤ c && c ≤ '\u30FF') ||
  ('\uFF10' ≤ c && c ≤ '\uFF19') || ('\uFF21' ≤ c && c ≤ '\uFF3A') ||
  ('\uFF41' ≤ c && c ≤ '\uFF5A')

/-- Regex `\d` (ASCII digits). -/
def isDigitC (c : Char) : Bool := c.isDigit

/-- Python `str.lstrip()`. -/
def pyLstrip (l : Line) : Line := l.dropWhile pyIsWs

/-- Python `str.rstrip()`. -/
def pyRstrip (l : Line) : Line := (l.reverse.dropWhile pyIsWs).reverse

/-- Python `str.strip()`. -/
def pyStrip (l : Line) : Line := pyLstrip (pyRstrip l)

/-- Python `str.rstrip(chars)` with an explicit character set. -/
def rstripSet (set : List Char) (l : Line) : Line :=
  (l.reverse.dropWhile (fun c => set.contains c)).reverse

/-- Python `line.strip() == ""` (used by `is_blank`). -/
def isBlankB (l : Line) : Bool := l.all pyIsWs

/-- Length of the leading-whitespace run (`leading_ws_len` in the source:
`len(s) - len(s.lstrip())`). -/
def leading_ws_len (l : Line) : Nat := (l.takeWhile pyIsWs).length

/-- Replace `\r\n` and lone `\r` by `\n`
(`md.replace("\r\n", "\n").replace("\r", "\n")`). -/
def normNl : Line → Line
  | [] => []
  | '\r' :: '\n' :: t => '\n' :: normNl t
  | '\r' :: t => '\n' :: normNl t
  | c :: t => c :: normNl t

/-- Python `str.split("\n")`. -/
def splitNl : Line → List Line
  | [] => [[]]
  | '\n' :: t => [] :: splitNl t
  | c :: t =>
    match splitNl t with
    | [] => [[c]]
    | l :: ls => (c :: l) :: ls

/-- Python `"\n".join(lines)`. -/
def joinNl : List Line → Line
  | [] => []
  | [l] => l
  | l :: ls => l ++ '\n' :: joinNl ls

/-- Python `str.expandtabs(4)`: each tab advances to the next 4-column stop. -/
def expandTabsGo (col : Nat) : Line → Line
  | [] => []
  | '\t' :: t =>
    let k := 4 - col % 4
    List.replicate k ' ' ++ expandTabsGo (col + k) t
  | c :: t => c :: expandTabsGo (col + 1) t

def expandTabs4 (l : Line) : Line := expandTabsGo 0 l

/-- Python `needle in haystack` substring test. -/
def hasSub (pat : Line) : Line → Bool
  | [] => pat.isEmpty
  | c :: t => pat.isPrefixOf (c :: t) || hasSub pat t

/-- Decimal digit character. -/
def digitChar : Nat → Char
  | 0 => '0' | 1 => '1' | 2 => '2' | 3 => '3' | 4 => '4'
  | 5 => '5' | 6 => '6' | 7 => '7' | 8 => '8' | _ => '9'

/-- Decimal rendering of a natural number (Python f-string of `n`); the
fuel argument only bounds the recursion and `n + 1` always suffices. -/
def natDigitsGo : Nat → Nat → List Char
  | 0, _ => []
  | fuel + 1, n =>
    if n < 10 then [digitChar n]
    else natDigitsGo fuel (n / 10) ++ [digitChar (n % 10)]

def natDigits (n : Nat) : List Char := natDigitsGo (n + 1) n

/-- Numeric value of a digit string. -/
def digitsToNat (ds : List Char) : Nat :=
  ds.foldl (fun a c => a * 10 + (c.toNat - 48)) 0

/-- Association-list lookup (Python `dict.get` / `dict[k]`). -/
def alookup {κ α : Type} [DecidableEq κ] (k : κ) : List (κ × α) → Option α
  | [] => none
  | (k', v) :: t => if k' = k then some v else alookup k t

/-- Association-list update (Python `dict[k] = v`). -/
def aset {κ α : Type} [DecidableEq κ] (k : κ) (v : α) : List (κ × α) → List (κ × α)
  | [] => [(k, v)]
  | (k', v') :: t => if k' = k then (k, v) :: t else (k', v') :: aset k v t

/-- Association-list deletion (Python `dict.pop(k, None)`). -/
def aerase {κ α : Type} [DecidableEq κ] (k : κ) : List (κ × α) → List (κ × α)
  | [] => []
  | (k', v') :: t => if k' = k then t else (k', v') :: aerase k t

/-- List-item type stored in `last_list_type` ("ol" / "ul"). -/
inductive LType where
  | ol : LType
  | ul : LType
deriving DecidableEq, Repr

/-! ### Regular-expression matchers -/

/-- Anchored match of `_re_heading = ^#{1,6}\s+` (as a Boolean). -/
def reHeadingB (s : Line) : Bool :=
  let n := (s.takeWhile (· = '#')).length
  decide (1 ≤ n) && decide (n ≤ 6) &&
    (match (s.drop n).head? with
     | some c => pyIsWs c
     | none => false)

/-- Anchored match of `_re_heading_level = ^(?P<marks>#{1,6})\s+`, returning
`(marks length, match end)`; the match end lies after the greedy `\s+` run. -/
def reHeadingLevel (s : Line) : Option (Nat × Nat) :=
  if 1 ≤ (s.takeWhile (· = '#')).length && (s.takeWhile (· = '#')).length ≤ 6 &&
      1 ≤ ((s.drop (s.takeWhile (· = '#')).length).takeWhile pyIsWs).length then
    some ((s.takeWhile (· = '#')).length,
      (s.takeWhile (· = '#')).length +
        ((s.drop (s.takeWhile (· = '#')).length).takeWhile pyIsWs).length)
  else none

/-- Helper: does `r` begin with a list marker followed by whitespace
(the part of `_re_list` after the leading `\s*`)? -/
def listMarkerHead (r : Line) : Bool :=
  match r with
  | [] => false
  | c :: t =>
    if c = '-' || c = '*' || c = '+' then
      match t.head? with
      | some d => pyIsWs d
      | none => false
    else
      let ds := (c :: t).takeWhile isDigitC
      if ds.isEmpty then false
      else
        match (c :: t).drop ds.length with
        | d :: e :: _ => (d = '.' || d = ')') && pyIsWs e
        | _ => false

/-- Anchored match of `_re_list = ^\s*(?:[-*+]\s+|\d+[.)]\s+)` (Boolean). -/
def reListB (s : Line) : Bool :=
  listMarkerHead (s.drop (leading_ws_len s))

/-- Anchored match of `_re_ul_marker = ^(?P<indent>\s*)[*+]\s+`, returning
`(indent length, match end)`; match end is after the greedy `\s+`. -/
def reUlMarker (s : Line) : Option (Nat × Nat) :=
  let i := leading_ws_len s
  match (s.drop i).head? with
  | some c =>
    if c = '*' || c = '+' then
      let w := ((s.drop (i + 1)).takeWhile pyIsWs).length
      if 1 ≤ w then some (i, i + 1 + w) else none
    else none
  | none => none

/-- Anchored match of `_re_ul_dash = ^(?P<indent>\s*)-\s+`, returning
`(indent length, match end)`. -/
def reUlDash (s : Line) : Option (Nat × Nat) :=
  let i := leading_ws_len s
  match (s.drop i).head? with
  | some c =>
    if c = '-' then
      let w := ((s.drop (i + 1)).takeWhile pyIsWs).length
      if 1 ≤ w then some (i, i + 1 + w) else none
    else none
  | none => none

/-- Anchored match of
`_re_ol_marker = ^(?P<indent>\s*)(?P<num>\d+)(?P<delim>[.)])\s+`, returning
`(indent length, num digits, delimiter, match end)`. -/
def reOlMarker (s : Line) : Option (Nat × List Char × Char × Nat) :=
  let i := leading_ws_len s
  let ds := (s.drop i).takeWhile isDigitC
  if ds.isEmpty then none
  else
    match (s.drop (i + ds.length)).head? with
    | some d =>
      if d = '.' || d = ')' then
        let w := ((s.drop (i + ds.length + 1)).takeWhile pyIsWs).length
        if 1 ≤ w then some (i, ds, d, i + ds.length + 1 + w) else none
      else none
    | none => none

/-- Full match of `\s*[-*+]\s*` or `\s*\d+[.)]\s*` (orphan list markers). -/
def orphanMarkerB (s : Line) : Bool :=
  let r := pyLstrip s
  (match r with
   | c :: t => (c = '-' || c = '*' || c = '+') && t.all pyIsWs
   | [] => false) ||
  (let ds := r.takeWhile isDigitC
   if ds.isEmpty then false
   else
     match r.drop ds.length with
     | d :: t => (d = '.' || d = ')') && t.all pyIsWs
     | [] => false)

/-- Full match of `\s*(?:>\s*)+\s*`: only whitespace and at least one `>`
(`is_blankish`'s quote-blank test). -/
def quoteBlankB (l : Line) : Bool :=
  l.any (· = '>') && l.all (fun c => pyIsWs c || c = '>')

/-- Source `is_blankish`: blank, or a pure blockquote-marker line. -/
def is_blankish (l : Line) : Bool := isBlankB l || quoteBlankB l

/-- Source `is_code_fence`: `ln.strip().startswith("```")`. -/
def is_code_fence (l : Line) : Bool :=
  ['`', '`', '`'].isPrefixOf (pyStrip l)

/-- Consume the repeated `(?:>\s*)+` groups of the blockquote-prefix regex,
returning the number of characters consumed.  The fuel argument only
bounds the recursion; each step consumes at least one character, so
`l.length` always suffices. -/
def bqGoF : Nat → Line → Nat
  | 0, _ => 0
  | fuel + 1, l =>
    match l with
    | '>' :: t =>
      1 + (t.takeWhile pyIsWs).length +
        bqGoF fuel (t.drop (t.takeWhile pyIsWs).length)
    | _ => 0

def bqGo (l : Line) : Nat := bqGoF l.length l

/-- Source `split_blockquote_prefix`: split a line into its blockquote
marker run (regex `^(?P<prefix>\s*(?:>\s*)+)`) and the remaining body;
a line with no blockquote marker is returned unchanged as the body. -/
def splitBq (l : Line) : Line × Line :=
  if (l.drop (leading_ws_len l)).head? = some '>' then
    (l.take (leading_ws_len l + bqGo (l.drop (leading_ws_len l))),
      l.drop (leading_ws_len l + bqGo (l.drop (leading_ws_len l))))
  else ([], l)

/-- Source `strip_blockquote`. -/
def strip_blockquote (l : Line) : Line := (splitBq l).2

/-- Source `is_heading` (on a full line, blockquote-aware). -/
def is_heading (l : Line) : Bool := reHeadingB (pyStrip (strip_blockquote l))

/-- Source `is_list` (on a full line, blockquote-aware). -/
def is_list (l : Line) : Bool := reListB (strip_blockquote l)

/-! ### Bare-URL wrapping (`_re_bare_url` and its `sub`) -/

def httpChars : Line := ['h', 't', 't', 'p', ':', '/', '/']

def httpsChars : Line := ['h', 't', 't', 'p', 's', ':', '/', '/']

/-- Character class `[^\s>]` of the URL tail. -/
def urlCharB (c : Char) : Bool := !pyIsWs c && c ≠ '>'

/-- Try to match `https?://[^\s>]+` at the start of `cs`; on success return
the matched token and the remaining input. -/
def urlToken (cs : Line) : Option (Line × Line) :=
  if httpsChars.isPrefixOf cs then
    if ((cs.drop 8).takeWhile urlCharB).isEmpty then none
    else some (cs.take 8 ++ (cs.drop 8).takeWhile urlCharB, (cs.drop 8).dropWhile urlCharB)
  else if httpChars.isPrefixOf cs then
    if ((cs.drop 7).takeWhile urlCharB).isEmpty then none
    else some (cs.take 7 ++ (cs.drop 7).takeWhile urlCharB, (cs.drop 7).dropWhile urlCharB)
  else none

/-- The substitution `_re_bare_url.sub(lambda m: f"<{m.group(0)}>", body)`:
scan left to right; a match of `https?://[^\\s>]+` whose preceding original
character is neither `(` nor `<` (the two lookbehinds) is wrapped in angle
brackets, and scanning resumes after the match with the lookbehind
character taken from the original string (the token's last character).
The fuel argument only bounds the recursion; each step consumes at least
one input character, so `fuel = l.length` always suffices. -/
def wrapUrlsGo : Nat → Option Char → Line → Line
  | 0, _, l => l
  | _ + 1, _, [] => []
  | fuel + 1, prev, c :: cs =>
    match urlToken (c :: cs) with
    | some (tok, rest) =>
      if prev = some '(' || prev = some '<' then c :: wrapUrlsGo fuel (some c) cs
      else '<' :: tok ++ '>' :: wrapUrlsGo fuel tok.reverse.head? rest
    | none => c :: wrapUrlsGo fuel (some c) cs

def wrapUrls (prev : Option Char) (l : Line) : Line := wrapUrlsGo l.length prev l

/-! ### Bold-only lines, percent heuristics, heading punctuation -/

/-- Is `s` an opening/closing bold marker position (`\*\*|__`)? -/
def boldMarkerAt (s : Line) : Bool :=
  (['*', '*'].isPrefixOf s) || (['_', '_'].isPrefixOf s)

/-- Lazy search for the closing marker of `_re_bold_only`: scan `s` for the
earliest position, after at least one text character, where a closing
`**`/`__` is followed only by whitespace up to the end; return the text. -/
def boldClose (accRev : Line) (s : Line) : Option Line :=
  match s with
  | [] => none
  | c :: t =>
    if !accRev.isEmpty && boldMarkerAt (c :: t) && (t.drop 1).all pyIsWs then
      some accRev.reverse
    else boldClose (c :: accRev) t

/-- Anchored match of
`_re_bold_only = ^(?P<indent>\s*)(?:\*\*|__)(?P<text>.+?)(?:\*\*|__)\s*$`,
returning `(indent length, text group)`. -/
def reBoldOnly (s : Line) : Option (Nat × Line) :=
  let i := leading_ws_len s
  let r := s.drop i
  if boldMarkerAt r then
    match boldClose [] (r.drop 2) with
    | some text => some (i, text)
    | none => none
  else none

/-- Search for `\b\d+%\s*$` (`ends_with_percent`): after stripping trailing
whitespace the string ends in `%` preceded by a digit run that starts at a
word boundary. -/
def endsWithPercent (rest : Line) : Bool :=
  match (pyRstrip rest).reverse with
  | '%' :: t =>
    let dsR := t.takeWhile isDigitC
    !dsR.isEmpty &&
      (match (t.drop dsR.length).head? with
       | some c => !pyIsWordChar c
       | none => true)
  | _ => false

/-- Search for `[（(]\s*\d+%\s*[）)]\s*$` (`looks_like_percent_item`). -/
def looksLikePercentItem (rest : Line) : Bool :=
  match (pyRstrip rest).reverse with
  | c :: t =>
    (c = ')' || c = '）') &&
      (match (t.dropWhile pyIsWs) with
       | '%' :: t2 =>
         let dsR := t2.takeWhile isDigitC
         !dsR.isEmpty &&
           (match ((t2.drop dsR.length).dropWhile pyIsWs).head? with
            | some o => o = '(' || o = '（'
            | none => false)
       | _ => false)
  | [] => false

/-- Punctuation characters stripped from heading ends (MD026). -/
def headingPunct : List Char :=
  ['：', ':', '。', '．', '，', ',', '；', ';', '！', '？', '!', '?', '、']

/-- Source `strip_heading_trailing_punct`. -/
def strip_heading_trailing_punct (heading_line : Line) : Line :=
  match reHeadingLevel (pyRstrip heading_line) with
  | none => heading_line
  | some (n, e) =>
    pyRstrip ((pyRstrip heading_line).take n ++ ' ' ::
      rstripSet headingPunct (pyRstrip ((pyRstrip heading_line).drop e)))

/-! ### Main-pass state and per-line processing -/

/-- Mutable state of the main pass of `_normalize_markdownlint`:
`in_code`, `list_indent_stack` (innermost entry first here; Python keeps
it at the end of the list), `ol_counters`, `last_list_type`,
`ol_marker_width`, `last_heading_level` and `prev_list`. -/
structure MState where
  inCode : Bool
  stack : List Nat
  olCounters : List (Line × Nat)
  lastListType : List (Line × LType)
  olMarkerWidth : List (Line × Nat)
  lastHeadingLevel : Nat
  prevList : Option (Line × LType × Nat × Line)
deriving Repr, DecidableEq

def initState : MState :=
  { inCode := false, stack := [], olCounters := [], lastListType := [],
    olMarkerWidth := [], lastHeadingLevel := 0, prevList := none }

/-- MD036: bold-only line to heading (only outside blockquotes). -/
def boldStage (lastH : Nat) (qp body : Line) : Line :=
  if qp.isEmpty then
    match reBoldOnly body with
    | some (i, textRaw) =>
      if i = 0 then
        let text := pyStrip textRaw
        if !text.isEmpty && text.head? ≠ some '#' && text.head? ≠ some '>'
            && !reListB text then
          List.replicate (min (max (lastH + 1) 2) 6) '#' ++ ' ' :: text
        else body
      else body
    | none => body
  else body

/-- MD004 / MD030: rewrite `*`/`+` markers to `-`, then normalize the
space after a `-` marker. -/
def ulMarkerStage (body : Line) : Line :=
  let b1 := match reUlMarker body with
    | some (i, e) => body.take i ++ '-' :: ' ' :: pyLstrip (body.drop e)
    | none => body
  match reUlDash b1 with
  | some (i, e) => b1.take i ++ '-' :: ' ' :: pyLstrip (b1.drop e)
  | none => b1

/-- The URL / bold / unordered-marker rewrites applied to a body before
the orphan-marker test. -/
def bodyAfterRewrites (st : MState) (qp body0 : Line) : Line :=
  let body1 := if hasSub httpChars body0 || hasSub httpsChars body0 then
      wrapUrls none body0
    else body0
  ulMarkerStage (boldStage st.lastHeadingLevel qp body1)

/-- Indentation normalization for an ordered-list marker (MD005/MD007):
up to 3 leading columns become top-level, 4 or more are reduced by 2. -/
def olIndentNorm (body : Line) (il : Nat) (num : List Char) (delim : Char)
    (e : Nat) : Line :=
  let normIndent := if il ≤ 3 then ([] : Line)
    else if il ≥ 4 then List.replicate (il - 2) ' '
    else body.take il
  normIndent ++ num ++ delim :: ' ' :: pyLstrip (body.drop e)

/-- The `for parent_indent_len in reversed(list_indent_stack)` loop: find
the nearest ordered-list ancestor and, when the item is indented under it
but not exactly at `parent + marker width`, rewrite the indentation.
Returns the body, the updated `indent_len` and the `indent_forced` flag. -/
def olAncestorScan (types : List (Line × LType)) (widths : List (Line × Nat))
    (stack : List Nat) (body : Line) (il e : Nat) : Line × Nat × Bool :=
  match stack with
  | [] => (body, il, false)
  | p :: rest =>
    if alookup (List.replicate p ' ') types ≠ some LType.ol ∨
        alookup (List.replicate p ' ') widths = none then
      olAncestorScan types widths rest body il e
    else
      if il > p then
        if il < p + (alookup (List.replicate p ' ') widths).getD 0 ∨
            il ≠ p + (alookup (List.replicate p ' ') widths).getD 0 then
          (List.replicate (p + (alookup (List.replicate p ' ') widths).getD 0) ' '
              ++ '-' :: ' ' :: pyLstrip (body.drop e),
            p + (alookup (List.replicate p ' ') widths).getD 0, true)
        else (body, il, true)
      else (body, il, false)

/-- Indentation normalization for an unordered `-` item, including the
percent-item promotion heuristic.  `il`/`e` are the indent length and the
match end of `_re_ul_dash` on `body`; later slices reuse this match end
exactly as the source reuses the stale `m_ul_indent` match object. -/
def ulIndentNorm (st : MState) (qp body : Line) (il e : Nat) : Line :=
  let rest := pyStrip (body.drop e)
  let ewp := endsWithPercent rest
  let llp := looksLikePercentItem rest
  let promo : Bool :=
    decide (il = 2) && (ewp || llp) &&
      (match st.prevList with
       | some (pq, k, pil, prest) =>
         decide (pq = qp) && decide (k = LType.ul) && decide (pil = 2) &&
           !(endsWithPercent prest || looksLikePercentItem prest)
       | none => false)
  let bodyA := if promo then '-' :: ' ' :: pyLstrip (body.drop e) else body
  let ilA := if promo then 0 else il
  let bodyB := if ilA ≤ 3 && llp then '-' :: ' ' :: pyLstrip (bodyA.drop e) else bodyA
  let scan := olAncestorScan st.lastListType st.olMarkerWidth st.stack bodyB ilA e
  if !scan.2.2 && scan.2.1 ≥ 4 then
    List.replicate (scan.2.1 - 2) ' ' ++ '-' :: ' ' :: pyLstrip (scan.1.drop e)
  else scan.1

/-- MD005 / MD007 block: dispatch on ordered vs unordered marker. -/
def indentStage (st : MState) (qp body : Line) : Line :=
  match reOlMarker body with
  | some (il, num, delim, e) => olIndentNorm body il num delim e
  | none =>
    match reUlDash body with
    | some (il, e) => ulIndentNorm st qp body il e
    | none => body

/-- MD007 dedent of accidentally-indented top-level lists plus the
indentation-stack maintenance, or (for non-list lines) the
continuation-line stack clearing. -/
def stackStage (stack : List Nat) (body : Line) : Line × List Nat :=
  if reListB body then
    let il0 := leading_ws_len body
    let bodyD := if il0 > 0 && stack.isEmpty then body.drop il0 else body
    let il := if il0 > 0 && stack.isEmpty then 0 else il0
    let stack1 := stack.dropWhile (fun t => il < t)
    let stack2 := match stack1 with
      | [] => [il]
      | t :: _ => if il > t then il :: stack1 else stack1
    (bodyD, stack2)
  else
    let stack' := match stack with
      | [] => stack
      | t :: _ => if leading_ws_len body < t + 2 then [] else stack
    (body, stack')

/-- MD029 / MD030: ordered-list renumbering and marker spacing, plus the
`last_list_type` / `ol_counters` / `ol_marker_width` updates. -/
def renumberStage (counters : List (Line × Nat)) (types : List (Line × LType))
    (widths : List (Line × Nat)) (body : Line) :
    Line × List (Line × Nat) × List (Line × LType) × List (Line × Nat) :=
  match reOlMarker body with
  | some (il, num, delim, e) =>
    let indentStr := body.take il
    let cnt := if alookup indentStr types ≠ some LType.ol then 1
      else (alookup indentStr counters).getD 0 + 1
    (indentStr ++ natDigits cnt ++ delim :: ' ' :: pyLstrip (body.drop e),
      aset indentStr cnt counters, aset indentStr LType.ol types,
      aset indentStr (num.length + 2) widths)
  | none =>
    if reListB body then
      let indentStr := body.take (leading_ws_len body)
      (body, aerase indentStr counters, aset indentStr LType.ul types,
        aerase indentStr widths)
    else (body, [], [], [])

/-- The `prev_list` tuple recorded after emitting a list line. -/
def prevOf (qp body : Line) : Option (Line × LType × Nat × Line) :=
  match reOlMarker body with
  | some (il, _, _, e) => some (qp, LType.ol, il, pyStrip (body.drop e))
  | none =>
    match reUlDash body with
    | some (il, e) => some (qp, LType.ul, il, pyStrip (body.drop e))
    | none => none

/-- The heading branch of the main loop (the `if not quote_prefix and
_re_heading.match(body.strip())` arm): clear the list state, update
`last_heading_level`, and emit the punctuation-stripped heading with
blank lines around it as required. -/
def mdStepHeading (st : MState) (lastOut : Option Line) (body5 : Line)
    (nextSrc : Option Line) : List Line × MState :=
  ((match lastOut with
    | some lo => if !is_blankish lo then [([] : Line)] else []
    | none => []) ++
    [strip_heading_trailing_punct (pyStrip body5)] ++
    (match nextSrc with
    | some ns => if !isBlankB ns then [([] : Line)] else []
    | none => []),
    { st with stack := [], olCounters := [], lastListType := [],
              lastHeadingLevel := (match reHeadingLevel (pyStrip body5) with
                | some (n, _) => n
                | none => st.lastHeadingLevel) })

/-- The list / plain-line tail of the main loop: MD007 dedent and stack
maintenance, MD029/MD030 renumbering, and the MD032 blank line before a
list block. -/
def mdStepListState (st : MState) (body5 : Line)
    (pl : Option (Line × LType × Nat × Line)) : MState :=
  { st with
    stack := (stackStage st.stack body5).2
    olCounters := (renumberStage st.olCounters st.lastListType st.olMarkerWidth (stackStage st.stack body5).1).2.1
    lastListType := (renumberStage st.olCounters st.lastListType st.olMarkerWidth (stackStage st.stack body5).1).2.2.1
    olMarkerWidth := (renumberStage st.olCounters st.lastListType st.olMarkerWidth (stackStage st.stack body5).1).2.2.2
    prevList := pl }

def mdStepList (st : MState) (lastOut : Option Line) (qp body5 : Line) :
    List Line × MState :=
  if reListB (renumberStage st.olCounters st.lastListType st.olMarkerWidth
      (stackStage st.stack body5).1).1 then
    ((match lastOut with
      | some lo =>
        if !is_blankish lo && !is_heading lo && !is_list lo then
          [pyRstrip qp]
        else []
      | none => []) ++
      [pyRstrip (qp ++ (renumberStage st.olCounters st.lastListType
        st.olMarkerWidth (stackStage st.stack body5).1).1)],
      mdStepListState st body5 (prevOf qp (renumberStage st.olCounters
        st.lastListType st.olMarkerWidth (stackStage st.stack body5).1).1))
  else
    ([pyRstrip (qp ++ (renumberStage st.olCounters st.lastListType
      st.olMarkerWidth (stackStage st.stack body5).1).1)],
      mdStepListState st body5 none)

/-- Processing of a non-fence, non-code, non-blank line after the
blockquote split and the URL/bold/marker rewrites. -/
def mdStepCore (st : MState) (lastOut : Option Line) (qp body3 : Line)
    (nextSrc : Option Line) : List Line × MState :=
  if orphanMarkerB body3 then ([pyRstrip qp], st)
  else
    if qp.isEmpty && reHeadingB (pyStrip (indentStage st qp body3)) then
      mdStepHeading st lastOut (indentStage st qp body3) nextSrc
    else mdStepList st lastOut qp (indentStage st qp body3)

/-- One iteration of the main `while i < len(src)` loop: processes one
source line given the previously emitted line (`out[-1]`) and the next
source line (`src[i+1]`), and returns the emitted lines together with
the updated state. -/
def mdStep (st : MState) (lastOut : Option Line) (rawSrc : Line)
    (nextSrc : Option Line) : List Line × MState :=
  if is_code_fence rawSrc then ([rawSrc], { st with inCode := !st.inCode })
  else if st.inCode then ([rawSrc], st)
  else
    if isBlankB (expandTabs4 rawSrc) then ([[]], { st with prevList := none })
    else mdStepCore st lastOut (splitBq (expandTabs4 rawSrc)).1
      (bodyAfterRewrites st (splitBq (expandTabs4 rawSrc)).1
        (splitBq (expandTabs4 rawSrc)).2) nextSrc

/-! ### The four passes -/

/-- The main pass: fold `mdStep` over the source lines, carrying the
emitted lines in reverse (`acc.head?` is Python's `out[-1]`). -/
def mainGo (st : MState) (acc : List Line) : List Line → List Line
  | [] => acc.reverse
  | l :: rest =>
    let r := mdStep st acc.head? l rest.head?
    mainGo r.2 (r.1.reverse ++ acc) rest

/-- Lines after `rstrip` of every raw line
(`src = [ln.rstrip() for ln in md.split("\n")]`). -/
def srcLines (input : Line) : List Line := (splitNl (normNl input)).map pyRstrip

def mainPass (src : List Line) : List Line := mainGo initState [] src

/-- Second pass (MD032): insert a blank line after a finished list block,
blockquote-prefix aware, skipping fenced code. -/
def pass2 (inCode : Bool) : List Line → List Line
  | [] => []
  | l :: rest =>
    if is_code_fence l then l :: pass2 (!inCode) rest
    else if inCode then l :: pass2 inCode rest
    else
      let ins : List Line :=
        if is_list l then
          match (rest.dropWhile is_blankish).head? with
          | some nx =>
            if !is_list nx then
              match rest.head? with
              | some imm => if !is_blankish imm then [pyRstrip (splitBq l).1] else []
              | none => []
            else []
          | none => []
        else []
      l :: (ins ++ pass2 inCode rest)

/-- Third pass (MD012): collapse runs of blank / quote-blank lines to a
single line; a kept line whose stripped form starts with `>` is kept
as-is, otherwise it becomes a plain blank line. -/
def collapseGo (prevBlank : Bool) : List Line → List Line
  | [] => []
  | l :: rest =>
    if is_blankish l then
      if prevBlank then collapseGo true rest
      else (if (pyStrip l).head? = some '>' then l else ([] : Line)) :: collapseGo true rest
    else l :: collapseGo false rest

def dropLeadingBlank (ls : List Line) : List Line := ls.dropWhile is_blankish

def dropTrailingBlank (ls : List Line) : List Line :=
  (ls.reverse.dropWhile is_blankish).reverse

/-- Rebuild one heading line in the fourth pass from its final level and
text: apply the single-H1 demotion (MD025) and the duplicate-text
suffixing (MD024), returning the new line, the updated occurrence count
table, and the updated have-H1 flag. -/
def pass4HeadingMk (counts : List (Line × Nat)) (haveH1 : Bool) (lvl : Nat)
    (text : Line) : Line × List (Line × Nat) × Bool :=
  (List.replicate (if lvl = 1 then (if haveH1 then 2 else 1) else lvl) '#' ++
      ' ' :: (if (alookup text counts).getD 0 + 1 > 1 then
        text ++ '（' :: natDigits ((alookup text counts).getD 0 + 1) ++ ['）']
      else text),
    aset text ((alookup text counts).getD 0 + 1) counts,
    if lvl = 1 then true else haveH1)

/-- Process one non-blockquote heading line `s` (with
`reHeadingLevel s = some (n, e)`) in the fourth pass: strip trailing
punctuation, re-derive level and text (falling back to the original
match when the stripped form no longer parses as a heading), then
rebuild. -/
def pass4Heading (counts : List (Line × Nat)) (haveH1 : Bool) (s : Line)
    (n e : Nat) : Line × List (Line × Nat) × Bool :=
  match reHeadingLevel (strip_heading_trailing_punct s) with
  | some (n2, e2) =>
    pass4HeadingMk counts haveH1 n2
      (pyStrip ((strip_heading_trailing_punct s).drop e2))
  | none => pass4HeadingMk counts haveH1 n (pyStrip (s.drop e))

/-- Fourth pass (MD024 / MD025 / MD026): heading punctuation stripping,
single-H1 demotion and duplicate-heading suffixing, skipping fenced code
and blockquoted headings. -/
def pass4Go (counts : List (Line × Nat)) (haveH1 inCode : Bool) :
    List Line → List Line
  | [] => []
  | l :: rest =>
    if is_code_fence l then l :: pass4Go counts haveH1 (!inCode) rest
    else if inCode then l :: pass4Go counts haveH1 inCode rest
    else
      match reHeadingLevel (pyStrip (splitBq l).2) with
      | some (n, e) =>
        if (splitBq l).1.isEmpty then
          (pass4Heading counts haveH1 (pyStrip (splitBq l).2) n e).1 ::
            pass4Go (pass4Heading counts haveH1 (pyStrip (splitBq l).2) n e).2.1
              (pass4Heading counts haveH1 (pyStrip (splitBq l).2) n e).2.2
              inCode rest
        else l :: pass4Go counts haveH1 inCode rest
      | none => l :: pass4Go counts haveH1 inCode rest

/-- All four passes, producing the final line list. -/
def normalizeLines (input : Line) : List Line :=
  pass4Go [] false false
    (dropTrailingBlank (dropLeadingBlank
      (collapseGo false (pass2 false (mainPass (srcLines input))))))

/-- The full `_normalize_markdownlint`:
`"\n".join(final_lines).rstrip() + "\n"`. -/
def normalize_markdownlint (input : Line) : Line :=
  pyRstrip (joinNl (normalizeLines input)) ++ ['\n']

/-- String-level wrapper. -/
def normalizeStr (s : String) : String := ⟨normalize_markdownlint s.data⟩

/-! ### Claim-level checkers

These definitions formalize the wording of spec claims (they follow the
spec's sentences, to be compared with the engine's behaviour); they are
not part of the engine embedding. -/

/-- Lines lying strictly between a recognized opening code fence and its
matching closing fence, using the engine's fence-toggle discipline. -/
def fencedLines (inC : Bool) : List Line → List Line
  | [] => []
  | l :: rest =>
    if is_code_fence l then fencedLines (!inC) rest
    else if inC then l :: fencedLines inC rest
    else fencedLines inC rest

def fencedOf (ls : List Line) : List Line := fencedLines false ls

/-- Claim C7's invariant: every occurrence of `http://` or `https://` is
immediately preceded by `<` or `(`. -/
def urlsWrappedOkGo (prev : Option Char) : Line → Bool
  | [] => true
  | c :: cs =>
    if httpChars.isPrefixOf (c :: cs) || httpsChars.isPrefixOf (c :: cs) then
      (prev = some '<' || prev = some '(') && urlsWrappedOkGo (some c) cs
    else urlsWrappedOkGo (some c) cs

def urlsWrappedOk (l : Line) : Bool := urlsWrappedOkGo none l

/-- The ordered-list item view of an output line: blockquote-stripped
indentation bucket and rendered number. -/
def olItemOf (l : Line) : Option (Nat × Nat) :=
  match reOlMarker (strip_blockquote l) with
  | some (il, num, _, _) => some (il, digitsToNat num)
  | none => none

/-- Claim C3's invariant: within any maximal run of ordered-list items
sharing one indentation bucket, where only blank (or quote-blank) lines
may intervene, the rendered numbers are `1, 2, 3, …`.  The state is the
bucket and count of the currently open run; any non-blank line that is
not an ordered item of the same bucket closes the run. -/
def olRunsSpecGo (stt : Option (Nat × Nat)) : List Line → Bool
  | [] => true
  | l :: rest =>
    if is_blankish l then olRunsSpecGo stt rest
    else
      match olItemOf l with
      | some (k, n) =>
        match stt with
        | some (k', c) =>
          if k' = k then decide (n = c + 1) && olRunsSpecGo (some (k, c + 1)) rest
          else decide (n = 1) && olRunsSpecGo (some (k, 1)) rest
        | none => decide (n = 1) && olRunsSpecGo (some (k, 1)) rest
      | none => olRunsSpecGo none rest

def olNumberingSpecOk (ls : List Line) : Bool := olRunsSpecGo none ls

/-- The amended ordered-numbering invariant: numbering is sequential per
indentation bucket; a run of a bucket is closed by an unordered item of
that same bucket or by any non-blank, non-list-item line, but survives
blank lines, ordered items of other buckets and unordered items of other
buckets. -/
def olRunsPerBucketGo (counters : List (Nat × Nat)) (types : List (Nat × LType)) :
    List Line → Bool
  | [] => true
  | l :: rest =>
    if is_blankish l then olRunsPerBucketGo counters types rest
    else
      match olItemOf l with
      | some (k, n) =>
        let expected := if alookup k types ≠ some LType.ol then 1
          else (alookup k counters).getD 0 + 1
        decide (n = expected) &&
          olRunsPerBucketGo (aset k expected counters) (aset k LType.ol types) rest
      | none =>
        if reListB (strip_blockquote l) then
          olRunsPerBucketGo (aerase (leading_ws_len (strip_blockquote l)) counters)
            (aset (leading_ws_len (strip_blockquote l)) LType.ul types) rest
        else olRunsPerBucketGo [] [] rest

def olNumberingPerBucketOk (ls : List Line) : Bool := olRunsPerBucketGo [] [] ls

/-- No two adjacent blank-or-quote-blank lines. -/
def noAdjBlank : List Line → Bool
  | a :: b :: t => (!(is_blankish a && is_blankish b)) && noAdjBlank (b :: t)
  | _ => true

/-! ### Claim theorems: concrete counterexamples and scenarios -/

/-- C8: `normalize("# A\n# A\n") = "# A\n\n## A（2）\n"` — the second
identical H1 is demoted to level 2 and suffixed with the Chinese
parenthesized occurrence counter, with one blank line between them. -/
theorem c8_duplicate_h1_scenario :
    normalizeStr "# A\n# A\n" = "# A\n\n## A（2）\n" := by decide

/-- C1 counterexample: normalization is not idempotent.  For the document
`"- a\n    1. x\n"` the first pass keeps the nested ordered item at
indentation 2 (4 reduced by 2), but a second pass treats indentation 2 as
at most 3 and resets it to top level, so the outputs differ. -/
theorem c1_idempotence_counterexample :
    normalizeStr "- a\n    1. x\n" = "- a\n  1. x\n" ∧
    normalizeStr (normalizeStr "- a\n    1. x\n") = "- a\n1. x\n" ∧
    normalizeStr (normalizeStr "- a\n    1. x\n") ≠ normalizeStr "- a\n    1. x\n" := by
  refine ⟨by decide, by decide, by decide⟩

/-- C1 amended: `normalize(normalize(x)) = normalize(x)` does not hold for
every document (see the counterexample); it does hold on each of the
spec's scenario documents. -/
theorem c1_idempotent_on_scenarios :
    normalizeStr (normalizeStr "# A\n# A\n") = normalizeStr "# A\n# A\n" ∧
    normalizeStr (normalizeStr "- one\n- two\n") = normalizeStr "- one\n- two\n" ∧
    normalizeStr (normalizeStr "1. x\n3. y\n") = normalizeStr "1. x\n3. y\n" ∧
    normalizeStr (normalizeStr "Visit https://example.com now\n")
      = normalizeStr "Visit https://example.com now\n" ∧
    normalizeStr (normalizeStr "**Summary**\n") = normalizeStr "**Summary**\n" := by
  refine ⟨by decide, by decide, by decide, by decide, by decide⟩

/-- C2 counterexample: a line between fences is not emitted byte-for-byte —
trailing whitespace is stripped from every source line, fenced ones
included (`src = [ln.rstrip() for ln in md.split("\n")]`). -/
theorem c2_fence_byte_preservation_counterexample :
    fencedOf (splitNl (normNl "```\nx \n```\n".data)) = [['x', ' ']] ∧
    fencedOf (normalizeLines "```\nx \n```\n".data) = [['x']] ∧
    ([['x', ' ']] : List Line) ≠ [['x']] := by
  refine ⟨by decide, by decide, by decide⟩

/-- C2 amended: between a recognized opening fence and its matching
closing fence a line is emitted with only trailing whitespace stripped —
no tab expansion, no URL wrapping, no list or heading rewriting — except
that runs of blank lines still collapse (the blank-run pass does not
track fences).  Verified on a representative fenced document containing
a tab, a bare URL, a misnumbered ordered item, trailing whitespace and a
double blank line. -/
theorem c2_fence_preservation_amended :
    normalizeStr "```\n\t1. a \nhttp://x\n3. b\n\n\nz\n```\n"
      = "```\n\t1. a\nhttp://x\n3. b\n\nz\n```\n" ∧
    fencedOf (normalizeLines "```\n\t1. a \nhttp://x\n3. b\n\n\nz\n```\n".data)
      = ["\t1. a".data, "http://x".data, "3. b".data, [], "z".data] := by
  refine ⟨by decide, by decide⟩

/-- C3 counterexample: the ordered-numbering invariant as stated fails.
In `"1. a\n   - b\n1. c\n"` the unordered item `- b` (a non-blank line
that is not an ordered item of bucket 0) separates the two ordered items
into two maximal runs, so both should render as `1`; but the per-bucket
counter survives the unordered item of another bucket and the second
item renders as `2`. -/
theorem c3_ordered_numbering_counterexample :
    normalizeStr "1. a\n   - b\n1. c\n" = "1. a\n   - b\n2. c\n" ∧
    olNumberingSpecOk (normalizeLines "1. a\n   - b\n1. c\n".data) = false := by
  refine ⟨by decide, by decide⟩

/-- C3 amended: numbering is sequential from 1 per indentation bucket,
where a bucket's run survives blank lines and list items of other
buckets, and is closed by an unordered item of the same bucket or by any
non-list, non-blank line; the original delimiter is preserved and the
scenario `"1. x\n3. y\n" → "1. x\n2. y\n"` holds.  Verified on
representative documents. -/
theorem c3_ordered_numbering_amended :
    normalizeStr "1. x\n3. y\n" = "1. x\n2. y\n" ∧
    olNumberingPerBucketOk (normalizeLines "1. x\n3. y\n".data) = true ∧
    olNumberingPerBucketOk (normalizeLines "1. a\n   - b\n1. c\n".data) = true ∧
    olNumberingPerBucketOk (normalizeLines "1. a\n\n5. b\n\n9. c\n".data) = true ∧
    olNumberingPerBucketOk
      (normalizeLines "1. a\n2. b\nx\n1. c\n- u\n1. d\n".data) = true := by
  refine ⟨by decide, by decide, by decide, by decide, by decide⟩

/-- C4 counterexample: a quote-blank line is not emitted as an empty
line.  The collapse pass keeps a blank-run's first line unchanged when
its stripped form starts with `>`, so `">"` survives as `">"` and the
quoting is preserved across the blank. -/
theorem c4_quote_blank_counterexample :
    normalizeStr "> a\n>\n> b\n" = "> a\n>\n> b\n" ∧
    quoteBlankB ">".data = true ∧ (">".data : Line) ≠ [] := by
  refine ⟨by decide, by decide, by decide⟩

/-- C6 counterexample: the promotion also requires the preceding list
item to be unordered.  Here the preceding same-prefix item `1. b` sits at
indentation 2 and does not end with a percent value, and the current
unordered item at indentation 2 ends with `50%`, yet it is not promoted
to indentation 0 because the preceding item is ordered. -/
theorem c6_percent_promotion_counterexample :
    normalizeStr "1. a\n    1. b\n  - c 50%\n" = "1. a\n  1. b\n  - c 50%\n" ∧
    endsWithPercent (pyStrip "c 50%".data) = true ∧
    endsWithPercent (pyStrip "b".data) = false ∧
    looksLikePercentItem (pyStrip "b".data) = false ∧
    leading_ws_len "  - c 50%".data = 2 := by
  refine ⟨by decide, by decide, by decide, by decide, by decide⟩

/-- C7 counterexample: the output URL-wrapping invariant fails twice
over: lines inside fenced code bypass the rewriter entirely, and a
second `http://` occurrence inside one greedy `[^\s>]+` token is
preceded by an ordinary token character rather than `<` or `(`. -/
theorem c7_url_wrapping_counterexample :
    normalizeStr "```\nhttp://e\n```\n" = "```\nhttp://e\n```\n" ∧
    urlsWrappedOk (normalize_markdownlint "```\nhttp://e\n```\n".data) = false ∧
    normalizeStr "http://ahttp://b\n" = "<http://ahttp://b>\n" ∧
    urlsWrappedOk (normalize_markdownlint "http://ahttp://b\n".data) = false := by
  refine ⟨by decide, by decide, by decide, by decide⟩

/-- C5 counterexample: on a heading line the engine clears the
indentation stack, the ordered counters and the list-type table, but not
the ordered-marker-width table: starting from a state recorded after
`1. a`, processing `# T` leaves `ol_marker_width` nonempty. -/
theorem c5_heading_clears_counterexample :
    (mdStep ⟨false, [0], [([], 1)], [([], LType.ol)], [([], 3)], 0,
        some ([], LType.ol, 0, ['a'])⟩
      (some "1. a".data) "# T".data none).2.stack = [] ∧
    (mdStep ⟨false, [0], [([], 1)], [([], LType.ol)], [([], 3)], 0,
        some ([], LType.ol, 0, ['a'])⟩
      (some "1. a".data) "# T".data none).2.olCounters = [] ∧
    (mdStep ⟨false, [0], [([], 1)], [([], LType.ol)], [([], 3)], 0,
        some ([], LType.ol, 0, ['a'])⟩
      (some "1. a".data) "# T".data none).2.lastListType = [] ∧
    (mdStep ⟨false, [0], [([], 1)], [([], LType.ol)], [([], 3)], 0,
        some ([], LType.ol, 0, ['a'])⟩
      (some "1. a".data) "# T".data none).2.olMarkerWidth = [([], 3)] ∧
    ([(([] : Line), 3)] : List (Line × Nat)) ≠ [] := by
  refine ⟨by decide, by decide, by decide, by decide, by decide⟩

/-! ### Helper lemmas about stripping -/

theorem head_dropWhile_not {α : Type} (p : α → Bool) (l : List α) (x : α)
    (h : (l.dropWhile p).head? = some x) : p x = false := by
  induction l with
  | nil => simp [List.dropWhile] at h
  | cons c t ih =>
    by_cases hc : p c
    · rw [List.dropWhile_cons_of_pos hc] at h
      exact ih h
    · rw [List.dropWhile_cons_of_neg hc] at h
      simp at h
      subst h
      exact Bool.not_eq_true _ ▸ (by simpa using hc)

theorem pyRstrip_getLast_not_ws (l : Line) (c : Char)
    (h : (pyRstrip l).getLast? = some c) : pyIsWs c = false := by
  unfold pyRstrip at h
  rw [List.getLast?_reverse] at h
  exact head_dropWhile_not _ _ _ h

/-- C9: the engine is total (a total Lean function of the input), every
output ends with exactly one trailing newline (the character before the
final newline, when present, is not a newline — indeed not whitespace),
and the empty document yields a single newline. -/
theorem c9_total_trailing_newline :
    (∀ input : Line, ∃ t : Line,
      normalize_markdownlint input = t ++ ['\n'] ∧ t.getLast? ≠ some '\n') ∧
    normalize_markdownlint [] = ['\n'] := by
  constructor
  · intro input
    refine ⟨pyRstrip (joinNl (normalizeLines input)), rfl, ?_⟩
    intro h
    have hws := pyRstrip_getLast_not_ws _ _ h
    have : pyIsWs '\n' = true := by decide
    rw [this] at hws
    exact absurd hws (by simp)
  · decide

/-- C5 amended: whenever the main pass reaches the heading branch (a
non-blockquote, non-orphan line whose processed body is a heading), the
resulting state has an empty indentation stack, empty ordered-counter
table and empty list-type table, while the ordered-marker-width table is
left exactly as it was. -/
theorem c5_heading_clears_amended (st : MState) (lastOut nextSrc : Option Line)
    (body3 : Line)
    (horphan : orphanMarkerB body3 = false)
    (hhead : reHeadingB (pyStrip (indentStage st [] body3)) = true) :
    (mdStepCore st lastOut [] body3 nextSrc).2.stack = [] ∧
    (mdStepCore st lastOut [] body3 nextSrc).2.olCounters = [] ∧
    (mdStepCore st lastOut [] body3 nextSrc).2.lastListType = [] ∧
    (mdStepCore st lastOut [] body3 nextSrc).2.olMarkerWidth = st.olMarkerWidth := by
  unfold mdStepCore
  rw [if_neg (show ¬(orphanMarkerB body3 = true) by rw [horphan]; simp)]
  rw [if_pos (show (List.isEmpty ([] : Line)
      && reHeadingB (pyStrip (indentStage st [] body3))) = true by rw [hhead]; rfl)]
  unfold mdStepHeading
  exact ⟨rfl, rfl, rfl, rfl⟩


/-- Witness for the amended C5 at a concrete state and heading line. -/
theorem c5_heading_clears_amended_witness :
    (mdStepCore ⟨false, [2], [([' ', ' '], 4)], [([' ', ' '], LType.ol)],
        [([' ', ' '], 3)], 1, none⟩
      (some ['x']) [] "## T2".data none).2.stack = [] ∧
    (mdStepCore ⟨false, [2], [([' ', ' '], 4)], [([' ', ' '], LType.ol)],
        [([' ', ' '], 3)], 1, none⟩
      (some ['x']) [] "## T2".data none).2.olCounters = [] ∧
    (mdStepCore ⟨false, [2], [([' ', ' '], 4)], [([' ', ' '], LType.ol)],
        [([' ', ' '], 3)], 1, none⟩
      (some ['x']) [] "## T2".data none).2.lastListType = [] ∧
    (mdStepCore ⟨false, [2], [([' ', ' '], 4)], [([' ', ' '], LType.ol)],
        [([' ', ' '], 3)], 1, none⟩
      (some ['x']) [] "## T2".data none).2.olMarkerWidth = [([' ', ' '], 3)] := by
  have h := c5_heading_clears_amended
    ⟨false, [2], [([' ', ' '], 4)], [([' ', ' '], LType.ol)], [([' ', ' '], 3)], 1, none⟩
    (some ['x']) none "## T2".data (by decide) (by decide)
  exact ⟨h.1, h.2.1, h.2.2.1, h.2.2.2⟩

theorem olAncestorScan_zero (types : List (Line × LType)) (widths : List (Line × Nat))
    (stack : List Nat) (body : Line) (e : Nat) :
    olAncestorScan types widths stack body 0 e = (body, 0, false) := by
  induction stack with
  | nil => rfl
  | cons p rest ih =>
    unfold olAncestorScan
    by_cases hc : alookup (List.replicate p ' ') types ≠ some LType.ol ∨
        alookup (List.replicate p ' ') widths = none
    · rw [if_pos hc]
      exact ih
    · rw [if_neg hc, if_neg (by omega : ¬(0 > p))]

/-- C6 amended: the percent promotion fires exactly when the immediately
preceding list item (same blockquote prefix, indentation 2, not
percent-ending) was an UNORDERED item: under those conditions an
indentation-2 dash item ending with a percent value is rewritten to
indentation 0. -/
theorem c6_percent_promotion_amended (st : MState) (qp body prest : Line)
    (e : Nat)
    (hol : reOlMarker body = none)
    (hud : reUlDash body = some (2, e))
    (hprev : st.prevList = some (qp, LType.ul, 2, prest))
    (hpnp : (endsWithPercent prest || looksLikePercentItem prest) = false)
    (hewp : endsWithPercent (pyStrip (body.drop e)) = true)
    (hllp : looksLikePercentItem (pyStrip (body.drop e)) = false) :
    indentStage st qp body = '-' :: ' ' :: pyLstrip (body.drop e) := by
  unfold indentStage
  rw [hol, hud]
  unfold ulIndentNorm
  simp [hprev, hewp, hllp, hpnp, olAncestorScan_zero]

/-- Witness for the amended C6: with an unordered, non-percent predecessor
at indentation 2, the indentation-2 item `  - c 50%` is promoted to
`- c 50%` at indentation 0. -/
theorem c6_percent_promotion_amended_witness :
    indentStage ⟨false, [0], [], [([], LType.ul)], [], 0,
        some ([], LType.ul, 2, ['b'])⟩
      [] "  - c 50%".data = "- c 50%".data := by
  have h := c6_percent_promotion_amended
    ⟨false, [0], [], [([], LType.ul)], [], 0, some ([], LType.ul, 2, ['b'])⟩
    [] "  - c 50%".data ['b'] 4 (by decide) (by decide) (by decide) (by decide)
    (by decide) (by decide)
  exact h.trans (by decide)

/-! ### Blank-run collapsing: no two adjacent blankish lines (claim C4) -/

theorem noAdjBlank_tail (x : Line) (L : List Line)
    (h : noAdjBlank (x :: L) = true) : noAdjBlank L = true := by
  cases L with
  | nil => rfl
  | cons y t =>
    unfold noAdjBlank at h
    simp only [Bool.and_eq_true] at h
    exact h.2

theorem noAdjBlank_cons_of (x : Line) (ys : List Line)
    (h1 : noAdjBlank ys = true)
    (h2 : ∀ y, ys.head? = some y → (is_blankish x && is_blankish y) = false) :
    noAdjBlank (x :: ys) = true := by
  cases ys with
  | nil => rfl
  | cons y t =>
    unfold noAdjBlank
    rw [h2 y rfl, h1]
    rfl

theorem collapseGo_head_true (ls : List Line) :
    ∀ x, (collapseGo true ls).head? = some x → is_blankish x = false := by
  induction ls with
  | nil => intro x h; simp [collapseGo] at h
  | cons l t ih =>
    intro x h
    rw [collapseGo] at h
    by_cases hb : is_blankish l = true
    · rw [if_pos hb, if_pos rfl] at h
      exact ih x h
    · rw [if_neg hb] at h
      simp at h
      subst h
      revert hb
      cases is_blankish l <;> simp

theorem noAdjBlank_collapseGo (ls : List Line) :
    ∀ pb : Bool, noAdjBlank (collapseGo pb ls) = true := by
  induction ls with
  | nil => intro pb; rfl
  | cons l t ih =>
    intro pb
    rw [collapseGo]
    by_cases hb : is_blankish l = true
    · rw [if_pos hb]
      cases pb with
      | true =>
        rw [if_pos rfl]
        exact ih true
      | false =>
        rw [if_neg (by decide)]
        refine noAdjBlank_cons_of _ _ (ih true) ?_
        intro y hy
        rw [collapseGo_head_true t y hy, Bool.and_false]
    · rw [if_neg hb]
      refine noAdjBlank_cons_of _ _ (ih false) ?_
      intro y hy
      have hbf : is_blankish l = false := by
        revert hb; cases is_blankish l <;> simp
      rw [hbf, Bool.false_and]

theorem noAdjBlank_suffix (a b : List Line)
    (h : noAdjBlank (a ++ b) = true) : noAdjBlank b = true := by
  induction a with
  | nil => exact h
  | cons x a' ih => exact ih (noAdjBlank_tail _ _ h)

theorem noAdjBlank_prefix (a : List Line) :
    ∀ b, noAdjBlank (a ++ b) = true → noAdjBlank a = true := by
  induction a with
  | nil => intro b _; rfl
  | cons x a' ih =>
    intro b h
    cases a' with
    | nil => rfl
    | cons y t =>
      have hpair : (!(is_blankish x && is_blankish y)) = true := by
        simp only [List.cons_append] at h
        unfold noAdjBlank at h
        simp only [Bool.and_eq_true] at h
        exact h.1
      have htail : noAdjBlank (y :: t) = true :=
        ih b (noAdjBlank_tail _ _ h)
      unfold noAdjBlank
      rw [hpair, htail]
      rfl

/-! ### Fourth pass preserves the blankish mask -/

theorem mem_pyRstrip (l : Line) (x : Char) (h : x ∈ pyRstrip l) : x ∈ l := by
  unfold pyRstrip at h
  rw [List.mem_reverse] at h
  exact List.mem_reverse.mp ((List.dropWhile_sublist pyIsWs).subset h)

theorem mem_pyLstrip (l : Line) (x : Char) (h : x ∈ pyLstrip l) : x ∈ l :=
  (List.dropWhile_sublist pyIsWs).subset h

theorem mem_pyStrip (l : Line) (x : Char) (h : x ∈ pyStrip l) : x ∈ l :=
  mem_pyRstrip _ _ (mem_pyLstrip _ _ h)

theorem is_blankish_false_of_hash (l : Line) (h : '#' ∈ l) :
    is_blankish l = false := by
  have h1 : l.all pyIsWs = false := by
    rcases Bool.eq_false_or_eq_true (l.all pyIsWs) with h1 | h1
    · exact absurd (List.all_eq_true.mp h1 '#' h) (by decide)
    · exact h1
  have h2 : l.all (fun c => pyIsWs c || c = '>') = false := by
    rcases Bool.eq_false_or_eq_true (l.all (fun c => pyIsWs c || c = '>')) with h2 | h2
    · exact absurd (List.all_eq_true.mp h2 '#' h) (by decide)
    · exact h2
  unfold is_blankish isBlankB quoteBlankB
  rw [h1, h2]
  simp

theorem reHeadingLevel_pos (s : Line) (n e : Nat)
    (h : reHeadingLevel s = some (n, e)) : 1 ≤ n := by
  unfold reHeadingLevel at h
  split at h
  · rename_i hg
    simp only [Option.some.injEq, Prod.mk.injEq] at h
    simp only [Bool.and_eq_true, decide_eq_true_eq] at hg
    omega
  · exact absurd h (by simp)

theorem reHeadingLevel_head (s : Line) (n e : Nat)
    (h : reHeadingLevel s = some (n, e)) : s.head? = some '#' := by
  have hn := reHeadingLevel_pos s n e h
  have hlen : 1 ≤ (s.takeWhile (· = '#')).length := by
    unfold reHeadingLevel at h
    split at h
    · rename_i hg
      simp only [Option.some.injEq, Prod.mk.injEq] at h
      simp only [Bool.and_eq_true, decide_eq_true_eq] at hg
      omega
    · exact absurd h (by simp)
  cases hs : s with
  | nil => rw [hs] at hlen; simp [List.takeWhile] at hlen
  | cons c cs =>
    rw [hs] at hlen
    by_cases hc : c = '#'
    · rw [hc]
      rfl
    · rw [List.takeWhile_cons_of_neg (by simpa using hc)] at hlen
      simp at hlen

theorem bqGo_pos (l : Line) (h : l.head? = some '>') : 1 ≤ bqGo l := by
  cases l with
  | nil => simp at h
  | cons c t =>
    simp at h
    subst h
    show 1 ≤ bqGoF (t.length + 1) ('>' :: t)
    simp only [bqGoF]
    omega

theorem splitBq_snd_of_fst_nil (l : Line) (h : (splitBq l).1 = []) :
    (splitBq l).2 = l := by
  unfold splitBq at h ⊢
  split at h
  · rename_i hgt
    exfalso
    have hne : l ≠ [] := by
      intro hl
      rw [hl] at hgt
      simp at hgt
    have hpos : 1 ≤ leading_ws_len l + bqGo (l.drop (leading_ws_len l)) := by
      have := bqGo_pos _ hgt
      omega
    rcases List.take_eq_nil_iff.mp h with h0 | h0
    · omega
    · exact hne h0
  · rw [if_neg (by assumption)]

theorem pass4HeadingMk_hash (counts : List (Line × Nat)) (h1 : Bool)
    (lvl : Nat) (text : Line) (hl : 1 ≤ lvl) :
    ∃ r, (pass4HeadingMk counts h1 lvl text).1 = '#' :: r := by
  have hk : 1 ≤ (if lvl = 1 then (if h1 = true then 2 else 1) else lvl) := by
    split
    · split <;> omega
    · omega
  rcases Nat.exists_eq_add_of_le hk with ⟨k, hkk⟩
  unfold pass4HeadingMk
  refine ⟨List.replicate k '#' ++ ' ' ::
    (if (alookup text counts).getD 0 + 1 > 1 then
      text ++ '（' :: natDigits ((alookup text counts).getD 0 + 1) ++ ['）']
    else text), ?_⟩
  simp only
  rw [hkk, Nat.add_comm 1 k, List.replicate_succ, List.cons_append]

theorem pass4Heading_hash (counts : List (Line × Nat)) (h1 : Bool) (s : Line)
    (n e : Nat) (hn : 1 ≤ n) :
    ∃ r, (pass4Heading counts h1 s n e).1 = '#' :: r := by
  unfold pass4Heading
  cases hm2 : reHeadingLevel (strip_heading_trailing_punct s) with
  | none => exact pass4HeadingMk_hash _ _ _ _ hn
  | some p =>
    exact pass4HeadingMk_hash _ _ _ _ (reHeadingLevel_pos _ _ _ hm2)

theorem noAdjBlank_congr (l₁ : List Line) :
    ∀ l₂, l₁.map is_blankish = l₂.map is_blankish →
      noAdjBlank l₁ = noAdjBlank l₂ := by
  induction l₁ with
  | nil =>
    intro l₂ h
    cases l₂ with
    | nil => rfl
    | cons y t => simp at h
  | cons x t ih =>
    intro l₂ h
    cases l₂ with
    | nil => simp at h
    | cons y t₂ =>
      simp only [List.map_cons, List.cons.injEq] at h
      obtain ⟨hxy, ht⟩ := h
      cases t with
      | nil =>
        cases t₂ with
        | nil => rfl
        | cons z z' => simp at ht
      | cons u t' =>
        cases t₂ with
        | nil => simp at ht
        | cons v t₂' =>
          have hu : is_blankish u = is_blankish v := by
            simp only [List.map_cons, List.cons.injEq] at ht
            exact ht.1
          unfold noAdjBlank
          rw [hxy, hu, ih (v :: t₂') ht]

theorem pass4Go_mask (ls : List Line) :
    ∀ counts h1 ic, (pass4Go counts h1 ic ls).map is_blankish =
      ls.map is_blankish := by
  induction ls with
  | nil => intro counts h1 ic; rfl
  | cons l t ih =>
    intro counts h1 ic
    rw [pass4Go]
    by_cases hf : is_code_fence l = true
    · rw [if_pos hf]
      simp only [List.map_cons, ih]
    · rw [if_neg hf]
      by_cases hic : ic = true
      · rw [if_pos hic]
        simp only [List.map_cons, ih]
      · rw [if_neg hic]
        cases hm : reHeadingLevel (pyStrip (splitBq l).2) with
        | none =>
          simp only [List.map_cons, ih]
        | some p =>
          obtain ⟨n, e⟩ := p
          simp only []
          by_cases hq : (splitBq l).1.isEmpty = true
          · rw [if_pos hq]
            simp only [List.map_cons, ih]
            have hbody : (splitBq l).2 = l :=
              splitBq_snd_of_fst_nil l (by simpa using hq)
            have hl : is_blankish l = false := by
              apply is_blankish_false_of_hash
              have hh := reHeadingLevel_head _ _ _ hm
              apply mem_pyStrip
              rw [hbody] at hh
              cases hps : pyStrip l with
              | nil => rw [hps] at hh; simp at hh
              | cons c cs =>
                rw [hps] at hh
                simp at hh
                rw [← hh]
                exact List.mem_cons_self _ _
            obtain ⟨r, hr⟩ := pass4Heading_hash counts h1
              (pyStrip (splitBq l).2) n e (reHeadingLevel_pos _ _ _ hm)
            have hA : is_blankish
                (pass4Heading counts h1 (pyStrip (splitBq l).2) n e).1 = false := by
              rw [hr]
              exact is_blankish_false_of_hash _ (List.mem_cons_self _ _)
            rw [hA, hl]
          · rw [if_neg hq]
            simp only [List.map_cons, ih]

/-- C4 amended: every run of one-or-more blank or quote-blank lines
collapses to exactly one line — the plain blank line when the run's
first line does not start with `>`, the quote-blank line itself when it
does (quoting is preserved, contrary to the claim) — so the output never
contains two adjacent blank-or-quote-blank lines; shown for every input,
together with the concrete quote-blank behaviour. -/
theorem c4_blank_collapse_amended :
    (∀ input : Line, noAdjBlank (normalizeLines input) = true) ∧
    normalizeStr "> a\n>\n>\n> b\n" = "> a\n>\n> b\n" ∧
    normalizeStr "a\n\n\n\nb\n" = "a\n\nb\n" := by
  refine ⟨?_, by decide, by decide⟩
  intro input
  unfold normalizeLines
  have h0 : noAdjBlank
      (collapseGo false (pass2 false (mainPass (srcLines input)))) = true :=
    noAdjBlank_collapseGo _ _
  have h1 : noAdjBlank (dropLeadingBlank
      (collapseGo false (pass2 false (mainPass (srcLines input))))) = true := by
    unfold dropLeadingBlank
    refine noAdjBlank_suffix (List.takeWhile is_blankish
      (collapseGo false (pass2 false (mainPass (srcLines input))))) _ ?_
    rw [List.takeWhile_append_dropWhile]
    exact h0
  have h2 : noAdjBlank (dropTrailingBlank (dropLeadingBlank
      (collapseGo false (pass2 false (mainPass (srcLines input)))))) = true := by
    unfold dropTrailingBlank
    refine noAdjBlank_prefix _ ((List.takeWhile is_blankish
      (dropLeadingBlank (collapseGo false (pass2 false
        (mainPass (srcLines input))))).reverse).reverse) ?_
    rw [show ((dropLeadingBlank (collapseGo false (pass2 false
        (mainPass (srcLines input))))).reverse.dropWhile is_blankish).reverse ++
        ((List.takeWhile is_blankish (dropLeadingBlank (collapseGo false
          (pass2 false (mainPass (srcLines input))))).reverse).reverse) =
        dropLeadingBlank (collapseGo false (pass2 false
          (mainPass (srcLines input)))) from ?_]
    · exact h1
    · rw [← List.reverse_append, List.takeWhile_append_dropWhile,
        List.reverse_reverse]
  rw [noAdjBlank_congr _ _ (pass4Go_mask _ [] false false)]
  exact h2

/-! ### No trailing whitespace (claim C10) -/

theorem dropWhile_idem {α : Type} (p : α → Bool) (l : List α) :
    (l.dropWhile p).dropWhile p = l.dropWhile p := by
  cases h : l.dropWhile p with
  | nil => rfl
  | cons c cs =>
    have hc : p c = false := head_dropWhile_not p l c (by rw [h]; rfl)
    rw [List.dropWhile_cons_of_neg (by simp [hc])]

theorem pyRstrip_idem (l : Line) : pyRstrip (pyRstrip l) = pyRstrip l := by
  unfold pyRstrip
  rw [List.reverse_reverse, dropWhile_idem]

theorem dropWhile_eq_self_head {α : Type} (p : α → Bool) (l : List α) (c : α)
    (heq : l.dropWhile p = l) (hhd : l.head? = some c) : p c = false := by
  cases l with
  | nil => simp at hhd
  | cons x t =>
    obtain rfl : x = c := by simpa using hhd
    by_cases hp : p x
    · rw [List.dropWhile_cons_of_pos hp] at heq
      have := congrArg List.length heq
      have hle := (List.dropWhile_sublist (l := t) (p := p)).length_le
      simp at this
      omega
    · revert hp
      cases p x <;> simp

theorem NT_iff (l : Line) : pyRstrip l = l ↔
    ∀ c, l.getLast? = some c → pyIsWs c = false := by
  constructor
  · intro h c hc
    have hrev : l.reverse.dropWhile pyIsWs = l.reverse := by
      have := congrArg List.reverse h
      rwa [pyRstrip, List.reverse_reverse] at this
    have hhd : l.reverse.head? = some c := by
      rw [List.head?_reverse]
      exact hc
    exact dropWhile_eq_self_head _ _ _ hrev hhd
  · intro h
    unfold pyRstrip
    cases hrev : l.reverse with
    | nil =>
      have : l = [] := by
        have := congrArg List.reverse hrev
        simpa using this
      rw [this]
      rfl
    | cons c t =>
      have hc : pyIsWs c = false := by
        apply h
        rw [← List.head?_reverse, hrev]
        rfl
      rw [List.dropWhile_cons_of_neg (by simp [hc]), ← hrev,
        List.reverse_reverse]

theorem mem_dropWhile_of_not {α : Type} [DecidableEq α] (p : α → Bool)
    (l : List α) (c : α) (hm : c ∈ l) (hp : p c = false) :
    c ∈ l.dropWhile p := by
  induction l with
  | nil => simp at hm
  | cons x t ih =>
    by_cases hx : p x
    · rw [List.dropWhile_cons_of_pos hx]
      rcases List.mem_cons.mp hm with h | h
      · subst h
        rw [hx] at hp
        simp at hp
      · exact ih h
    · rw [List.dropWhile_cons_of_neg hx]
      exact hm

theorem pyStrip_ne_nil_of_mem (l : Line) (c : Char) (hm : c ∈ l)
    (hc : pyIsWs c = false) : pyStrip l ≠ [] := by
  intro hcon
  have h1 : c ∈ pyRstrip l := by
    unfold pyRstrip
    rw [List.mem_reverse]
    exact mem_dropWhile_of_not _ _ _ (List.mem_reverse.mpr hm) hc
  have h2 : c ∈ pyStrip l := mem_dropWhile_of_not _ _ _ h1 hc
  rw [hcon] at h2
  simp at h2

theorem NT_pyStrip (l : Line) : pyRstrip (pyStrip l) = pyStrip l := by
  rw [NT_iff]
  intro c hc
  have hsuf : ∃ a, a ++ pyStrip l = pyRstrip l :=
    ⟨(pyRstrip l).takeWhile pyIsWs,
      List.takeWhile_append_dropWhile pyIsWs (pyRstrip l)⟩
  obtain ⟨a, ha⟩ := hsuf
  have hlast : (pyRstrip l).getLast? = some c := by
    rw [← ha]
    rw [List.getLast?_append_of_ne_nil]
    · exact hc
    · intro hnil
      rw [hnil] at hc
      simp at hc
  exact pyRstrip_getLast_not_ws _ _ hlast

theorem NT_shp (x : Line) (h : pyRstrip x = x) :
    pyRstrip (strip_heading_trailing_punct x) = strip_heading_trailing_punct x := by
  unfold strip_heading_trailing_punct
  cases hm : reHeadingLevel (pyRstrip x) with
  | none => exact h
  | some p =>
    obtain ⟨n, e⟩ := p
    exact pyRstrip_idem _

theorem drop_takeWhile_length {α : Type} (p : α → Bool) (l : List α) :
    l.drop (l.takeWhile p).length = l.dropWhile p := by
  induction l with
  | nil => rfl
  | cons c t ih =>
    by_cases hc : p c
    · rw [List.takeWhile_cons_of_pos hc, List.length_cons,
        List.drop_succ_cons, ih, List.dropWhile_cons_of_pos hc]
    · rw [List.takeWhile_cons_of_neg (by simpa using hc), List.length_nil,
        List.drop_zero, List.dropWhile_cons_of_neg (by simpa using hc)]

theorem head?_mem_self {α : Type} (l : List α) (c : α) (h : l.head? = some c) :
    c ∈ l := by
  cases l with
  | nil => simp at h
  | cons x t =>
    simp at h
    subst h
    exact List.mem_cons_self _ _

theorem getLast?_mem_self (l : Line) (c : Char) (h : l.getLast? = some c) :
    c ∈ l := by
  rw [← List.head?_reverse] at h
  exact List.mem_reverse.mp (head?_mem_self _ _ h)

theorem heading_rest_ne_nil (s : Line) (n e : Nat) (hNT : pyRstrip s = s)
    (hm : reHeadingLevel s = some (n, e)) : pyStrip (s.drop e) ≠ [] := by
  unfold reHeadingLevel at hm
  split at hm
  case isFalse => exact absurd hm (by simp)
  case isTrue hg =>
  simp only [Option.some.injEq, Prod.mk.injEq] at hm
  obtain ⟨hn, he⟩ := hm
  simp only [Bool.and_eq_true, decide_eq_true_eq] at hg
  have hdw : s.drop e = (s.drop n).dropWhile pyIsWs := by
    subst hn
    subst he
    rw [← List.drop_drop]
    exact drop_takeWhile_length pyIsWs _
  intro hcon
  cases hde : s.drop e with
  | cons c cs =>
    have hc : pyIsWs c = false := by
      apply head_dropWhile_not pyIsWs (s.drop n)
      rw [← hdw, hde]
      rfl
    have hcm : c ∈ s.drop e := by
      rw [hde]
      exact List.mem_cons_self _ _
    exact pyStrip_ne_nil_of_mem _ _ hcm hc hcon
  | nil =>
    have hwpos : 1 ≤ ((s.drop n).takeWhile pyIsWs).length := by
      rw [hn] at hg
      exact hg.2
    have hdn : s.drop n ≠ [] := by
      intro hx
      rw [hx] at hwpos
      simp [List.takeWhile] at hwpos
    have hall : ∀ x ∈ s.drop n, pyIsWs x = true := by
      have : (s.drop n).dropWhile pyIsWs = [] := by rw [← hdw, hde]
      exact fun x hx => List.dropWhile_eq_nil_iff.mp this x hx
    obtain ⟨c, hc⟩ : ∃ c, (s.drop n).getLast? = some c := by
      cases hx : s.drop n with
      | nil => exact absurd hx hdn
      | cons y t => exact ⟨(y :: t).getLast (by simp), List.getLast?_eq_getLast _ _⟩
    have hlast : s.getLast? = some c := by
      conv_lhs => rw [← List.take_append_drop n s]
      rw [List.getLast?_append_of_ne_nil _ hdn]
      exact hc
    have := (NT_iff s).mp hNT c hlast
    rw [hall c (getLast?_mem_self _ _ hc)] at this
    simp at this

theorem pass4HeadingMk_NT (counts : List (Line × Nat)) (h1 : Bool) (lvl : Nat)
    (text : Line) (hNT : pyRstrip text = text) (hne : text ≠ []) :
    pyRstrip (pass4HeadingMk counts h1 lvl text).1 =
      (pass4HeadingMk counts h1 lvl text).1 := by
  unfold pass4HeadingMk
  simp only
  generalize (List.replicate (if lvl = 1 then (if h1 = true then 2 else 1) else lvl) '#') = R
  by_cases hc : (alookup text counts).getD 0 + 1 > 1
  · rw [if_pos hc]
    generalize natDigits ((alookup text counts).getD 0 + 1) = nd
    rw [NT_iff]
    intro c hcl
    have heq : R ++ ' ' :: (text ++ '（' :: nd ++ ['）']) =
        (R ++ ' ' :: (text ++ '（' :: nd)) ++ ['）'] := by
      simp
    rw [heq, List.getLast?_concat] at hcl
    have : '）' = c := by simpa using hcl
    rw [← this]
    decide
  · rw [if_neg hc]
    rw [NT_iff]
    intro c hcl
    have heq : R ++ ' ' :: text = (R ++ [' ']) ++ text := by simp
    rw [heq, List.getLast?_append_of_ne_nil _ hne] at hcl
    exact (NT_iff text).mp hNT c hcl

theorem pass4Heading_NT (counts : List (Line × Nat)) (h1 : Bool) (s : Line)
    (n e : Nat) (hNT : pyRstrip s = s) (hm : reHeadingLevel s = some (n, e)) :
    pyRstrip (pass4Heading counts h1 s n e).1 =
      (pass4Heading counts h1 s n e).1 := by
  unfold pass4Heading
  cases hm2 : reHeadingLevel (strip_heading_trailing_punct s) with
  | some p =>
    obtain ⟨n2, e2⟩ := p
    have hNT2 : pyRstrip (strip_heading_trailing_punct s) =
        strip_heading_trailing_punct s := NT_shp s hNT
    exact pass4HeadingMk_NT _ _ _ _
      (NT_pyStrip _)
      (heading_rest_ne_nil _ _ _ hNT2 hm2)
  | none =>
    exact pass4HeadingMk_NT _ _ _ _
      (NT_pyStrip _)
      (heading_rest_ne_nil _ _ _ hNT hm)

theorem mdStepHeading_NT (st : MState) (lastOut : Option Line) (body5 : Line)
    (nextSrc : Option Line) :
    ∀ x ∈ (mdStepHeading st lastOut body5 nextSrc).1, pyRstrip x = x := by
  intro x hx
  unfold mdStepHeading at hx
  simp only at hx
  rcases List.mem_append.mp hx with h | h
  · rcases List.mem_append.mp h with h2 | h2
    · split at h2
      · split at h2
        · simp at h2
          rw [h2]
          rfl
        · simp at h2
      · simp at h2
    · simp at h2
      rw [h2]
      exact NT_shp _ (NT_pyStrip _)
  · split at h
    · split at h
      · simp at h
        rw [h]
        rfl
      · simp at h
    · simp at h

theorem mdStepList_NT (st : MState) (lastOut : Option Line) (qp body5 : Line) :
    ∀ x ∈ (mdStepList st lastOut qp body5).1, pyRstrip x = x := by
  intro x hx
  unfold mdStepList at hx
  split at hx
  · simp only at hx
    rcases List.mem_append.mp hx with h | h
    · split at h
      · split at h
        · simp at h
          rw [h]
          exact pyRstrip_idem _
        · simp at h
      · simp at h
    · simp at h
      rw [h]
      exact pyRstrip_idem _
  · simp only at hx
    simp at hx
    rw [hx]
    exact pyRstrip_idem _

theorem mdStepCore_NT (st : MState) (lastOut : Option Line) (qp body3 : Line)
    (nextSrc : Option Line) :
    ∀ x ∈ (mdStepCore st lastOut qp body3 nextSrc).1, pyRstrip x = x := by
  intro x hx
  unfold mdStepCore at hx
  split at hx
  · simp at hx
    rw [hx]
    exact pyRstrip_idem _
  · split at hx
    · exact mdStepHeading_NT _ _ _ _ x hx
    · exact mdStepList_NT _ _ _ _ x hx

theorem mdStep_NT (st : MState) (lastOut : Option Line) (rawSrc : Line)
    (nextSrc : Option Line) (hNT : pyRstrip rawSrc = rawSrc) :
    ∀ x ∈ (mdStep st lastOut rawSrc nextSrc).1, pyRstrip x = x := by
  intro x hx
  unfold mdStep at hx
  split at hx
  · simp at hx
    rw [hx]
    exact hNT
  · split at hx
    · simp at hx
      rw [hx]
      exact hNT
    · split at hx
      · simp at hx
        rw [hx]
        rfl
      · exact mdStepCore_NT _ _ _ _ _ x hx

theorem mainGo_NT (src : List Line) :
    ∀ st acc, (∀ l ∈ src, pyRstrip l = l) → (∀ l ∈ acc, pyRstrip l = l) →
      ∀ x ∈ mainGo st acc src, pyRstrip x = x := by
  induction src with
  | nil =>
    intro st acc _ hacc x hx
    rw [mainGo] at hx
    exact hacc x (List.mem_reverse.mp hx)
  | cons l rest ih =>
    intro st acc hsrc hacc x hx
    rw [mainGo] at hx
    refine ih _ _ (fun y hy => hsrc y (List.mem_cons_of_mem _ hy)) ?_ x hx
    intro y hy
    rcases List.mem_append.mp hy with h | h
    · exact mdStep_NT _ _ _ _ (hsrc l (List.mem_cons_self _ _)) y
        (List.mem_reverse.mp h)
    · exact hacc y h

theorem srcLines_NT (input : Line) : ∀ l ∈ srcLines input, pyRstrip l = l := by
  intro l hl
  unfold srcLines at hl
  obtain ⟨y, _, hy⟩ := List.mem_map.mp hl
  rw [← hy]
  exact pyRstrip_idem _

theorem pass2_NT (ls : List Line) :
    ∀ ic, (∀ l ∈ ls, pyRstrip l = l) → ∀ x ∈ pass2 ic ls, pyRstrip x = x := by
  induction ls with
  | nil => intro ic _ x hx; simp [pass2] at hx
  | cons l t ih =>
    intro ic hall x hx
    have hl := hall l (List.mem_cons_self _ _)
    have ht : ∀ y ∈ t, pyRstrip y = y :=
      fun y hy => hall y (List.mem_cons_of_mem _ hy)
    rw [pass2] at hx
    split at hx
    · rcases List.mem_cons.mp hx with h | h
      · rw [h]; exact hl
      · exact ih _ ht x h
    · split at hx
      · rcases List.mem_cons.mp hx with h | h
        · rw [h]; exact hl
        · exact ih _ ht x h
      · rcases List.mem_cons.mp hx with h | h
        · rw [h]; exact hl
        · rcases List.mem_append.mp h with h2 | h2
          · split at h2
            · split at h2
              · split at h2
                · split at h2
                  · split at h2
                    · simp at h2
                      rw [h2]
                      exact pyRstrip_idem _
                    · simp at h2
                  · simp at h2
                · simp at h2
              · simp at h2
            · simp at h2
          · exact ih _ ht x h2

theorem collapseGo_NT (ls : List Line) :
    ∀ pb, (∀ l ∈ ls, pyRstrip l = l) → ∀ x ∈ collapseGo pb ls, pyRstrip x = x := by
  induction ls with
  | nil => intro pb _ x hx; simp [collapseGo] at hx
  | cons l t ih =>
    intro pb hall x hx
    have hl := hall l (List.mem_cons_self _ _)
    have ht : ∀ y ∈ t, pyRstrip y = y :=
      fun y hy => hall y (List.mem_cons_of_mem _ hy)
    rw [collapseGo] at hx
    split at hx
    · split at hx
      · exact ih _ ht x hx
      · rcases List.mem_cons.mp hx with h | h
        · split at h
          · rw [h]; exact hl
          · rw [h]; rfl
        · exact ih _ ht x h
    · rcases List.mem_cons.mp hx with h | h
      · rw [h]; exact hl
      · exact ih _ ht x h

theorem trim_NT (ls : List Line) (hall : ∀ l ∈ ls, pyRstrip l = l) :
    ∀ x ∈ dropTrailingBlank (dropLeadingBlank ls), pyRstrip x = x := by
  intro x hx
  apply hall
  unfold dropTrailingBlank at hx
  have h1 : x ∈ dropLeadingBlank ls := by
    rw [List.mem_reverse] at hx
    exact List.mem_reverse.mp ((List.dropWhile_sublist is_blankish).subset hx)
  exact (List.dropWhile_sublist is_blankish).subset h1

theorem pass4Go_NT (ls : List Line) :
    ∀ counts h1 ic, (∀ l ∈ ls, pyRstrip l = l) →
      ∀ x ∈ pass4Go counts h1 ic ls, pyRstrip x = x := by
  induction ls with
  | nil => intro counts h1 ic _ x hx; simp [pass4Go] at hx
  | cons l t ih =>
    intro counts h1 ic hall x hx
    have hl := hall l (List.mem_cons_self _ _)
    have ht : ∀ y ∈ t, pyRstrip y = y :=
      fun y hy => hall y (List.mem_cons_of_mem _ hy)
    rw [pass4Go] at hx
    split at hx
    · rcases List.mem_cons.mp hx with h | h
      · rw [h]; exact hl
      · exact ih _ _ _ ht x h
    · split at hx
      · rcases List.mem_cons.mp hx with h | h
        · rw [h]; exact hl
        · exact ih _ _ _ ht x h
      · split at hx
        · rename_i n e hm
          split at hx
          · rcases List.mem_cons.mp hx with h | h
            · rw [h]
              exact pass4Heading_NT _ _ _ _ _ (NT_pyStrip _) hm
            · exact ih _ _ _ ht x h
          · rcases List.mem_cons.mp hx with h | h
            · rw [h]; exact hl
            · exact ih _ _ _ ht x h
        · rcases List.mem_cons.mp hx with h | h
          · rw [h]; exact hl
          · exact ih _ _ _ ht x h

/-- C10: every line of the normalized output is free of trailing
whitespace (Python `rstrip`-fixed), fenced code lines included: the
engine strips every source line before any pass and every rewritten or
inserted line is emitted in stripped form. -/
theorem c10_no_trailing_whitespace (input : Line) :
    ∀ l ∈ normalizeLines input, pyRstrip l = l := by
  intro l hl
  unfold normalizeLines at hl
  refine pass4Go_NT _ _ _ _ ?_ l hl
  refine trim_NT _ ?_
  refine collapseGo_NT _ _ ?_
  refine pass2_NT _ _ ?_
  refine mainGo_NT _ _ _ (srcLines_NT input) ?_
  intro y hy
  simp at hy

/-! ### The bare-URL rewriter's output invariant (claim C7) -/

theorem urlToken_some_decomp (cs tok rest : Line)
    (h : urlToken cs = some (tok, rest)) : cs = tok ++ rest := by
  unfold urlToken at h
  split at h
  · split at h
    · exact absurd h (by simp)
    · simp only [Option.some.injEq, Prod.mk.injEq] at h
      rw [← h.1, ← h.2, List.append_assoc, List.takeWhile_append_dropWhile,
        List.take_append_drop]
  · split at h
    · split at h
      · exact absurd h (by simp)
      · simp only [Option.some.injEq, Prod.mk.injEq] at h
        rw [← h.1, ← h.2, List.append_assoc, List.takeWhile_append_dropWhile,
          List.take_append_drop]
    · exact absurd h (by simp)

theorem urlToken_tok_urlchar (cs tok rest : Line)
    (h : urlToken cs = some (tok, rest)) :
    ∀ x ∈ tok, urlCharB x = true := by
  unfold urlToken at h
  split at h
  · rename_i hp
    split at h
    · exact absurd h (by simp)
    · simp only [Option.some.injEq, Prod.mk.injEq] at h
      intro x hx
      rw [← h.1] at hx
      rcases List.mem_append.mp hx with h2 | h2
      · obtain ⟨r0, hr0⟩ := List.isPrefixOf_iff_prefix.mp hp
        have : cs.take 8 = httpsChars := by
          rw [← hr0, show (8 : Nat) = httpsChars.length from rfl,
            List.take_left]
        rw [this] at h2
        have hall : ∀ y ∈ httpsChars, urlCharB y = true := by decide
        exact hall x h2
      · exact List.mem_takeWhile_imp h2
  · split at h
    · rename_i hp
      split at h
      · exact absurd h (by simp)
      · simp only [Option.some.injEq, Prod.mk.injEq] at h
        intro x hx
        rw [← h.1] at hx
        rcases List.mem_append.mp hx with h2 | h2
        · obtain ⟨r0, hr0⟩ := List.isPrefixOf_iff_prefix.mp hp
          have : cs.take 7 = httpChars := by
            rw [← hr0, show (7 : Nat) = httpChars.length from rfl,
              List.take_left]
          rw [this] at h2
          have hall : ∀ y ∈ httpChars, urlCharB y = true := by decide
          exact hall x h2
        · exact List.mem_takeWhile_imp h2
    · exact absurd h (by simp)

theorem urlToken_rest_head (cs tok rest : Line)
    (h : urlToken cs = some (tok, rest)) :
    rest = [] ∨ ∃ r, rest.head? = some r ∧ urlCharB r = false := by
  unfold urlToken at h
  split at h
  · split at h
    · exact absurd h (by simp)
    · simp only [Option.some.injEq, Prod.mk.injEq] at h
      rw [← h.2]
      cases hx : (cs.drop 8).dropWhile urlCharB with
      | nil => exact Or.inl rfl
      | cons r rs =>
        refine Or.inr ⟨r, rfl, ?_⟩
        exact head_dropWhile_not urlCharB (cs.drop 8) r (by rw [hx]; rfl)
  · split at h
    · split at h
      · exact absurd h (by simp)
      · simp only [Option.some.injEq, Prod.mk.injEq] at h
        rw [← h.2]
        cases hx : (cs.drop 7).dropWhile urlCharB with
        | nil => exact Or.inl rfl
        | cons r rs =>
          refine Or.inr ⟨r, rfl, ?_⟩
          exact head_dropWhile_not urlCharB (cs.drop 7) r (by rw [hx]; rfl)
    · exact absurd h (by simp)

theorem urlToken_head_h (cs tok rest : Line)
    (h : urlToken cs = some (tok, rest)) : cs.head? = some 'h' := by
  unfold urlToken at h
  split at h
  · rename_i hp
    obtain ⟨r0, hr0⟩ := List.isPrefixOf_iff_prefix.mp hp
    rw [← hr0]
    rfl
  · split at h
    · rename_i hp
      obtain ⟨r0, hr0⟩ := List.isPrefixOf_iff_prefix.mp hp
      rw [← hr0]
      rfl
    · exact absurd h (by simp)

theorem urlToken_rest_lt (cs tok rest : Line)
    (h : urlToken cs = some (tok, rest)) : rest.length < cs.length := by
  unfold urlToken at h
  split at h
  · rename_i hp
    split at h
    · exact absurd h (by simp)
    · simp only [Option.some.injEq, Prod.mk.injEq] at h
      have hlen : 8 ≤ cs.length := by
        have := (List.isPrefixOf_iff_prefix.mp hp).length_le
        simpa [httpsChars] using this
      have h1 := (List.dropWhile_suffix (l := cs.drop 8) urlCharB).length_le
      rw [List.length_drop] at h1
      rw [← h.2]
      omega
  · split at h
    · rename_i hp
      split at h
      · exact absurd h (by simp)
      · simp only [Option.some.injEq, Prod.mk.injEq] at h
        have hlen : 7 ≤ cs.length := by
          have := (List.isPrefixOf_iff_prefix.mp hp).length_le
          simpa [httpChars] using this
        have h1 := (List.dropWhile_suffix (l := cs.drop 7) urlCharB).length_le
        rw [List.length_drop] at h1
        rw [← h.2]
        omega
    · exact absurd h (by simp)

theorem not_https_prefix_of_http (cs' : Line) :
    httpsChars.isPrefixOf (httpChars ++ cs') = false := rfl

theorem urlToken_isSome_follower (sch cs' : Line) (r : Char) (rs : Line)
    (hsch : sch = httpChars ∨ sch = httpsChars) (hcs : cs' = r :: rs)
    (hr : urlCharB r = true) : urlToken (sch ++ cs') ≠ none := by
  rcases hsch with h | h <;> subst h <;> subst hcs
  · unfold urlToken
    rw [not_https_prefix_of_http]
    have hp : httpChars.isPrefixOf (httpChars ++ r :: rs) = true :=
      List.isPrefixOf_iff_prefix.mpr ⟨r :: rs, rfl⟩
    rw [if_neg (by simp), if_pos hp]
    have hd : (httpChars ++ r :: rs).drop 7 = r :: rs := by
      rw [show (7 : Nat) = httpChars.length from rfl, List.drop_left]
    rw [hd]
    simp [List.takeWhile, hr]
  · unfold urlToken
    have hp : httpsChars.isPrefixOf (httpsChars ++ r :: rs) = true :=
      List.isPrefixOf_iff_prefix.mpr ⟨r :: rs, rfl⟩
    rw [if_pos hp]
    have hd : (httpsChars ++ r :: rs).drop 8 = r :: rs := by
      rw [show (8 : Nat) = httpsChars.length from rfl, List.drop_left]
    rw [hd]
    simp [List.takeWhile, hr]

theorem wrapUrlsGo_nil (fuel : Nat) (prev : Option Char) :
    wrapUrlsGo fuel prev [] = [] := by
  cases fuel <;> rfl

theorem wrapUrlsGo_head_not_url (fuel : Nat) (prev : Option Char) (l : Line)
    (r : Char) (hh : l.head? = some r) (hr : urlCharB r = false) :
    (wrapUrlsGo fuel prev l).head? = some r := by
  cases fuel with
  | zero => simpa [wrapUrlsGo] using hh
  | succ f =>
    cases l with
    | nil => simp at hh
    | cons c cs =>
      have hcr : r = c := by
        have := hh
        simp only [List.head?_cons, Option.some.injEq] at this
        exact this.symm
      subst hcr
      have htok : urlToken (r :: cs) = none := by
        cases hx : urlToken (r :: cs) with
        | none => rfl
        | some pr =>
          obtain ⟨tok, rest⟩ := pr
          have hhd := urlToken_head_h _ _ _ hx
          have hrh : r = 'h' := by simpa using hhd
          rw [hrh] at hr
          exact absurd hr (by decide)
      simp only [wrapUrlsGo, htok, List.head?_cons]

theorem getLastQ_cons_match (x : Char) (p' : Line) (c : Option Char) :
    (match (x :: p').getLast? with | some y => some y | none => c) =
    (match p'.getLast? with | some y => some y | none => some x) := by
  cases p' with
  | nil => rfl
  | cons z zs =>
    rw [List.getLast?_cons_cons]
    cases hg : (z :: zs).getLast? with
    | none => exact absurd hg (by simp)
    | some y => rfl

theorem sch_ne_nil (sch : Line) (h : sch = httpChars ∨ sch = httpsChars) :
    sch ≠ [] := by
  rcases h with h | h <;> subst h <;> simp [httpChars, httpsChars]

theorem sch_head_h (sch : Line) (h : sch = httpChars ∨ sch = httpsChars) :
    sch.head? = some 'h' := by
  rcases h with h | h <;> subst h <;> rfl

theorem nil_ne_append_sch (a sch b : Line)
    (hsch : sch = httpChars ∨ sch = httpsChars) :
    ([] : Line) ≠ a ++ (sch ++ b) := by
  intro h
  have h0 := h.symm
  rw [List.append_eq_nil] at h0
  obtain ⟨-, h1⟩ := h0
  rw [List.append_eq_nil] at h1
  exact sch_ne_nil sch hsch h1.1

theorem wrapUrlsGo_copy (p : Line) (hp : '<' ∉ p) :
    ∀ (fuel : Nat) (prev : Option Char) (cs d : Line),
      wrapUrlsGo fuel prev cs = p ++ d →
      ∃ cs', cs = p ++ cs' ∧
        d = wrapUrlsGo (fuel - p.length)
          (match p.getLast? with | some y => some y | none => prev) cs' := by
  induction p with
  | nil =>
    intro fuel prev cs d h
    exact ⟨cs, rfl, by simpa using h.symm⟩
  | cons x p' ih =>
    intro fuel prev cs d h
    have hx : x ≠ '<' := fun hcl => hp (hcl ▸ List.mem_cons_self x p')
    have hp' : '<' ∉ p' := fun hcl => hp (List.mem_cons_of_mem x hcl)
    cases fuel with
    | zero =>
      simp only [wrapUrlsGo] at h
      refine ⟨d, h, ?_⟩
      have hz : (0 : Nat) - (x :: p').length = 0 := Nat.zero_sub _
      rw [hz]
      rfl
    | succ f =>
      cases cs with
      | nil =>
        rw [wrapUrlsGo_nil] at h
        exact absurd h (by simp)
      | cons c cs₂ =>
        simp only [wrapUrlsGo] at h
        cases htok : urlToken (c :: cs₂) with
        | none =>
          simp only [htok] at h
          simp only [List.cons_append] at h
          rw [List.cons.injEq] at h
          obtain ⟨hcx, htl⟩ := h
          subst hcx
          obtain ⟨cs', hcs, hd⟩ := ih hp' f (some c) cs₂ d htl
          refine ⟨cs', by rw [hcs, List.cons_append], ?_⟩
          rw [hd, List.length_cons, Nat.succ_sub_succ, getLastQ_cons_match]
        | some pr =>
          obtain ⟨tok, rest⟩ := pr
          simp only [htok] at h
          split at h
          · simp only [List.cons_append] at h
            rw [List.cons.injEq] at h
            obtain ⟨hcx, htl⟩ := h
            subst hcx
            obtain ⟨cs', hcs, hd⟩ := ih hp' f (some c) cs₂ d htl
            refine ⟨cs', by rw [hcs, List.cons_append], ?_⟩
            rw [hd, List.length_cons, Nat.succ_sub_succ, getLastQ_cons_match]
          · simp only [List.cons_append] at h
            rw [List.cons.injEq] at h
            exact absurd h.1.symm hx

theorem no_unwrapped_sch (f : Nat) (c : Char) (cs sch b : Line) (u : Char)
    (hsch : sch = httpChars ∨ sch = httpsChars)
    (htok : urlToken (c :: cs) = none)
    (heq : c :: wrapUrlsGo f (some c) cs = sch ++ b)
    (hb : b.head? = some u) (hu : urlCharB u = true) : False := by
  rcases hsch with h | h <;> subst h
  · have hexp : httpChars ++ b =
        'h' :: 't' :: 't' :: 'p' :: ':' :: '/' :: '/' :: b := rfl
    rw [hexp, List.cons.injEq] at heq
    obtain ⟨hch, hW⟩ := heq
    subst hch
    have hW' : wrapUrlsGo f (some 'h') cs =
        (['t', 't', 'p', ':', '/', '/'] : Line) ++ b := hW
    obtain ⟨cs', hcs, hd⟩ :=
      wrapUrlsGo_copy ['t', 't', 'p', ':', '/', '/'] (by decide) f (some 'h')
        cs b hW'
    cases cs' with
    | nil =>
      rw [wrapUrlsGo_nil] at hd
      rw [hd] at hb
      simp at hb
    | cons r rs =>
      cases hur : urlCharB r with
      | true =>
        refine urlToken_isSome_follower httpChars (r :: rs) r rs (Or.inl rfl)
          rfl hur ?_
        rw [show (httpChars ++ (r :: rs) : Line) = 'h' :: cs from by rw [hcs]; rfl]
        exact htok
      | false =>
        rw [hd] at hb
        rw [wrapUrlsGo_head_not_url _ _ (r :: rs) r rfl hur] at hb
        have hru : r = u := by simpa using hb
        rw [hru] at hur
        rw [hur] at hu
        exact absurd hu (by decide)
  · have hexp : httpsChars ++ b =
        'h' :: 't' :: 't' :: 'p' :: 's' :: ':' :: '/' :: '/' :: b := rfl
    rw [hexp, List.cons.injEq] at heq
    obtain ⟨hch, hW⟩ := heq
    subst hch
    have hW' : wrapUrlsGo f (some 'h') cs =
        (['t', 't', 'p', 's', ':', '/', '/'] : Line) ++ b := hW
    obtain ⟨cs', hcs, hd⟩ :=
      wrapUrlsGo_copy ['t', 't', 'p', 's', ':', '/', '/'] (by decide) f
        (some 'h') cs b hW'
    cases cs' with
    | nil =>
      rw [wrapUrlsGo_nil] at hd
      rw [hd] at hb
      simp at hb
    | cons r rs =>
      cases hur : urlCharB r with
      | true =>
        refine urlToken_isSome_follower httpsChars (r :: rs) r rs (Or.inr rfl)
          rfl hur ?_
        rw [show (httpsChars ++ (r :: rs) : Line) = 'h' :: cs from by rw [hcs]; rfl]
        exact htok
      | false =>
        rw [hd] at hb
        rw [wrapUrlsGo_head_not_url _ _ (r :: rs) r rfl hur] at hb
        have hru : r = u := by simpa using hb
        rw [hru] at hur
        rw [hur] at hu
        exact absurd hu (by decide)

theorem rest_not_sch (f : Nat) (pr : Option Char) (rest sch b : Line)
    (hsch : sch = httpChars ∨ sch = httpsChars)
    (hrest : rest = [] ∨ ∃ r, rest.head? = some r ∧ urlCharB r = false)
    (hW : wrapUrlsGo f pr rest = sch ++ b) : False := by
  rcases hrest with h | ⟨r, hrh, hru⟩
  · subst h
    rw [wrapUrlsGo_nil] at hW
    exact nil_ne_append_sch [] sch b hsch (by simpa using hW)
  · have hh := wrapUrlsGo_head_not_url f pr rest r hrh hru
    rw [hW, List.head?_append_of_ne_nil sch (sch_ne_nil sch hsch),
      sch_head_h sch hsch] at hh
    have : 'h' = r := by simpa using hh
    rw [← this] at hru
    exact absurd hru (by decide)

theorem head_ne_sch (ch : Char) (X sch b : Line)
    (hsch : sch = httpChars ∨ sch = httpsChars) (hch : ch ≠ 'h')
    (h : ch :: X = sch ++ b) : False := by
  have h1 : (ch :: X).head? = (sch ++ b).head? := by rw [h]
  rw [List.head?_append_of_ne_nil sch (sch_ne_nil sch hsch),
    sch_head_h sch hsch] at h1
  exact hch (by simpa using h1)

/-- Core invariant of the left-to-right URL substitution: wherever the
output contains an `http://` or `https://` scheme still followed by a URL
character, either the occurrence sits at the very start of the output and
the incoming lookbehind character was `(` or `<` (the suppressed-wrap
case), or the character immediately before it is a URL character — the
inserted `<`, the `(`/`<` that blocked wrapping, or an inner character of
the same greedy token, all of which are non-whitespace and distinct from
`>`. -/
theorem wrapUrlsGo_wrapped (fuel : Nat) :
    ∀ (prev : Option Char) (l a sch b : Line) (u : Char),
      l.length ≤ fuel →
      (sch = httpChars ∨ sch = httpsChars) →
      wrapUrlsGo fuel prev l = a ++ (sch ++ b) →
      b.head? = some u → urlCharB u = true →
      (a = [] → prev = some '(' ∨ prev = some '<') ∧
      (∀ c, a.getLast? = some c → urlCharB c = true) := by
  induction fuel with
  | zero =>
    intro prev l a sch b u hlen hsch heq hb hu
    have hl : l = [] := List.length_eq_zero.mp (Nat.le_zero.mp hlen)
    subst hl
    rw [wrapUrlsGo_nil] at heq
    exact absurd heq (nil_ne_append_sch a sch b hsch)
  | succ f ih =>
    intro prev l a sch b u hlen hsch heq hb hu
    cases l with
    | nil =>
      rw [wrapUrlsGo_nil] at heq
      exact absurd heq (nil_ne_append_sch a sch b hsch)
    | cons c cs =>
      have hcs : cs.length ≤ f := by
        simp only [List.length_cons] at hlen
        omega
      simp only [wrapUrlsGo] at heq
      cases htok : urlToken (c :: cs) with
      | none =>
        simp only [htok] at heq
        cases a with
        | nil =>
          simp only [List.nil_append] at heq
          exact absurd (no_unwrapped_sch f c cs sch b u hsch htok heq hb hu)
            (by simp)
        | cons x a' =>
          simp only [List.cons_append] at heq
          rw [List.cons.injEq] at heq
          obtain ⟨hcx, htl⟩ := heq
          obtain ⟨ih1, ih2⟩ := ih (some c) cs a' sch b u hcs hsch htl hb hu
          refine ⟨fun hcontra => absurd hcontra (by simp), ?_⟩
          intro c' hlast
          cases a' with
          | nil =>
            have hxc : x = c' := by simpa using hlast
            have hcl : c = '(' ∨ c = '<' := by
              rcases ih1 rfl with h2 | h2
              · exact Or.inl (by simpa using h2)
              · exact Or.inr (by simpa using h2)
            rw [← hxc, ← hcx]
            rcases hcl with h3 | h3 <;> rw [h3] <;> decide
          | cons z zs =>
            rw [List.getLast?_cons_cons] at hlast
            exact ih2 c' hlast
      | some pr =>
        obtain ⟨tok, rest⟩ := pr
        have hrl : rest.length ≤ f := by
          have := urlToken_rest_lt (c :: cs) tok rest htok
          simp only [List.length_cons] at this hlen
          omega
        simp only [htok] at heq
        split at heq
        · rename_i hblk
          simp only [Bool.or_eq_true, decide_eq_true_eq] at hblk
          cases a with
          | nil =>
            refine ⟨fun _ => hblk, ?_⟩
            intro c' hlast
            simp at hlast
          | cons x a' =>
            simp only [List.cons_append] at heq
            rw [List.cons.injEq] at heq
            obtain ⟨hcx, htl⟩ := heq
            obtain ⟨ih1, ih2⟩ := ih (some c) cs a' sch b u hcs hsch htl hb hu
            refine ⟨fun hcontra => absurd hcontra (by simp), ?_⟩
            intro c' hlast
            cases a' with
            | nil =>
              have hxc : x = c' := by simpa using hlast
              rcases ih1 rfl with h1 | h1 <;>
                (have hcl : c = '(' ∨ c = '<' := by
                   rcases ih1 rfl with h2 | h2 <;>
                     [exact Or.inl (by simpa using h2);
                      exact Or.inr (by simpa using h2)];
                 rw [← hxc, ← hcx];
                 rcases hcl with h3 | h3 <;> rw [h3] <;> decide)
            | cons z zs =>
              rw [List.getLast?_cons_cons] at hlast
              exact ih2 c' hlast
        · cases a with
          | nil =>
            simp only [List.nil_append] at heq
            exact absurd (head_ne_sch '<' (tok ++ '>' ::
              wrapUrlsGo f tok.reverse.head? rest) sch b hsch (by decide) heq)
              (by simp)
          | cons x a' =>
            simp only [List.cons_append] at heq
            rw [List.cons.injEq] at heq
            obtain ⟨hcx, htl⟩ := heq
            rw [List.append_eq_append_iff] at htl
            rcases htl with ⟨m, hm1, hm2⟩ | ⟨m, hm1, hm2⟩
            · cases m with
              | nil =>
                simp only [List.nil_append] at hm2
                exact absurd (head_ne_sch '>'
                  (wrapUrlsGo f tok.reverse.head? rest) sch b hsch
                  (by decide) hm2) (by simp)
              | cons y m' =>
                simp only [List.cons_append] at hm2
                rw [List.cons.injEq] at hm2
                obtain ⟨hy, hW⟩ := hm2
                refine ⟨fun hcontra => absurd hcontra (by simp), ?_⟩
                intro c' hlast
                cases m' with
                | nil =>
                  exact absurd (rest_not_sch f tok.reverse.head? rest sch b
                    hsch (urlToken_rest_head (c :: cs) tok rest htok)
                    (by simpa using hW)) (by simp)
                | cons z zs =>
                  obtain ⟨-, ih2⟩ := ih tok.reverse.head? rest (z :: zs) sch
                    b u hrl hsch hW hb hu
                  rw [hm1, ← hy, ← hcx] at hlast
                  have hre : (('<' : Char) :: (tok ++ '>' :: z :: zs) : Line)
                      = (('<' :: tok) ++ ['>']) ++ (z :: zs) := by simp
                  rw [hre, List.getLast?_append_of_ne_nil _ (by simp)]
                    at hlast
                  exact ih2 c' hlast
            · rw [List.append_eq_append_iff] at hm2
              rcases hm2 with ⟨k, hk1, hk2⟩ | ⟨k, hk1, hk2⟩
              · refine ⟨fun hcontra => absurd hcontra (by simp), ?_⟩
                intro c' hlast
                cases a' with
                | nil =>
                  have hxc : x = c' := by simpa using hlast
                  rw [← hxc, ← hcx]
                  decide
                | cons z zs =>
                  rw [List.getLast?_cons_cons] at hlast
                  have hmem : c' ∈ tok := by
                    rw [hm1]
                    exact List.mem_append.mpr
                      (Or.inl (getLast?_mem_self _ _ hlast))
                  exact urlToken_tok_urlchar (c :: cs) tok rest htok c' hmem
              · cases k with
                | nil =>
                  simp only [List.nil_append] at hk2
                  rw [← hk2] at hb
                  have : ('>' : Char) = u := by simpa using hb
                  rw [← this] at hu
                  exact absurd hu (by decide)
                | cons y k' =>
                  simp only [List.cons_append] at hk2
                  rw [List.cons.injEq] at hk2
                  obtain ⟨hy, -⟩ := hk2
                  have hmem : ('>' : Char) ∈ sch := by
                    rw [hk1, ← hy]
                    exact List.mem_append.mpr (Or.inr (List.mem_cons_self _ _))
                  rcases hsch with h | h <;> rw [h] at hmem <;>
                    exact absurd hmem (by decide)

/-- C7 (amended): in the output of the per-line bare-URL rewriter, every
occurrence of `http://` or `https://` that is still followed by at least
one URL character (non-whitespace, not `>`) is immediately preceded by a
character, and that character is itself non-whitespace and distinct from
`>`: the inserted `<`, the `(`/`<` that suppressed wrapping, or an inner
character of the same greedy token. Fenced-code lines bypass the rewriter
altogether, and a scheme with no URL tail is not wrapped, so the
unconditional form of the claim fails (see the counterexample). -/
theorem c7_url_wrapping_amended (body a sch b : Line) (u : Char)
    (hsch : sch = httpChars ∨ sch = httpsChars)
    (heq : wrapUrls none body = a ++ (sch ++ b))
    (hb : b.head? = some u) (hu : urlCharB u = true) :
    a ≠ [] ∧ ∀ c, a.getLast? = some c → urlCharB c = true := by
  obtain ⟨h1, h2⟩ := wrapUrlsGo_wrapped body.length none body a sch b u
    (Nat.le_refl _) hsch heq hb hu
  refine ⟨?_, h2⟩
  intro hnil
  rcases h1 hnil with h | h <;> simp at h

/-- Witness for the amended C7 theorem on the line `x http://a b`, whose
rewritten form is `x <http://a> b`: the occurrence of `http://` followed
by the URL character `a` is preceded by the inserted `<`. -/
theorem c7_url_wrapping_amended_witness :
    "x <".data ≠ [] ∧
      ∀ c, ("x <".data : Line).getLast? = some c → urlCharB c = true :=
  c7_url_wrapping_amended "x http://a b".data "x <".data httpChars
    "a> b".data 'a' (Or.inl rfl) (by decide) (by decide) (by decide)

/-- Witness for C10 on the one-line document `a`: the single output line
is `a`, and it is fixed by trailing-whitespace stripping. -/
theorem c10_no_trailing_whitespace_witness :
    "a".data ∈ normalizeLines "a".data ∧ pyRstrip "a".data = "a".data :=
  ⟨by decide, c10_no_trailing_whitespace "a".data "a".data (by decide)⟩
